import Mathlib

/-!
# sampha server: static resolver, API router, CORS middleware, port configuration, lifecycle

A shallow embedding of `apps/server` (Go) and of the standard-library routines it calls.

Go strings are modelled as lists of Unicode characters (`Str`); byte strings that are not
valid UTF-8 lie outside the model.  File contents and response bodies are byte lists.
-/

namespace Sampha

/-- A Go `string`, as the list of its characters. -/
abbrev Str := List Char

/-- A Go `[]byte`. -/
abbrev Bytes := List UInt8

/-! ## package strings -/

/-- Go `strings.HasPrefix(s, prefix)`. -/
def HasPrefix (s pre : Str) : Bool := pre.isPrefixOf s

/-- Go `strings.HasSuffix(s, suffix)`. -/
def HasSuffix (s suf : Str) : Bool := suf.isSuffixOf s

/-- Go `strings.TrimPrefix(s, prefix)`: `s` without the leading `prefix`, or `s` itself. -/
def TrimPrefix (s pre : Str) : Str :=
  if HasPrefix s pre then s.drop pre.length else s

/-- Go `strings.TrimSuffix(s, suffix)`. -/
def TrimSuffix (s suf : Str) : Str :=
  if HasSuffix s suf then s.take (s.length - suf.length) else s

/-- Go `strings.Contains(s, substr)`. -/
def Contains (s sub : Str) : Bool := s.tails.any (fun t => sub.isPrefixOf t)

/-! ## package path -/

/-- The backtracking step of `path.Clean` on the reversed buffer:
`out.w--; for out.w > dotdot && out.index(out.w) != '/' { out.w-- }`.
The argument is the reversed buffer `c :: rest`, where `c = out.index(out.w)` after the
decrement and `rest.length = out.w`. -/
def backtrackRev (dotdot : Nat) : List Char → List Char
  | [] => []
  | c :: rest => if rest.length > dotdot ∧ c ≠ '/' then backtrackRev dotdot rest else rest

/-- The buffer `out` of `path.Clean` after backtracking over the last element. -/
def backtrack (dotdot : Nat) (out : Str) : Str :=
  (backtrackRev dotdot out.reverse).reverse

/-- The main loop `for r < n` of Go `path.Clean`.  `path` is the unread input `path[r:]`,
`out` the contents `buf[0:w]` of the lazy buffer, `dotdot` the index where `..` must stop.
Every iteration consumes at least one byte, so `fuel = len(path)` iterations suffice. -/
def cleanLoop (rooted : Bool) : Nat → Str → Str → Nat → Str
  | 0, _, out, _ => out
  | _ + 1, [], out, _ => out
  | fuel + 1, c :: rest, out, dotdot =>
    if c = '/' then
      -- empty path element
      cleanLoop rooted fuel rest out dotdot
    else if c = '.' ∧ (rest = [] ∨ rest.head? = some '/') then
      -- . element
      cleanLoop rooted fuel rest out dotdot
    else if c = '.' ∧ rest.head? = some '.' ∧
        (rest.drop 1 = [] ∨ (rest.drop 1).head? = some '/') then
      -- .. element: remove to last /
      if out.length > dotdot then
        cleanLoop rooted fuel (rest.drop 1) (backtrack dotdot out) dotdot
      else if !rooted then
        let out1 := if out.length > 0 then out ++ ['/'] else out
        cleanLoop rooted fuel (rest.drop 1) (out1 ++ ['.', '.']) (out1.length + 2)
      else
        cleanLoop rooted fuel (rest.drop 1) out dotdot
    else
      -- real path element: add slash if needed, copy element
      let out1 :=
        if (rooted ∧ out.length ≠ 1) ∨ (¬ rooted ∧ out.length ≠ 0) then out ++ ['/'] else out
      cleanLoop rooted fuel (rest.dropWhile (· ≠ '/'))
        (out1 ++ c :: rest.takeWhile (· ≠ '/')) dotdot

/-- Go `path.Clean`. -/
def Clean (path : Str) : Str :=
  match path with
  | [] => ['.']
  | c :: rest =>
    let rooted := decide (c = '/')
    let out :=
      if rooted then cleanLoop true path.length rest ['/'] 1
      else cleanLoop false path.length path [] 0
    -- Turn empty string into "."
    if out.length = 0 then ['.'] else out

/-- Go `path.Base`. -/
def Base (path : Str) : Str :=
  if path = [] then ['.'] else
    -- Strip trailing slashes.
    let p := (path.reverse.dropWhile (· = '/')).reverse
    -- Find the last element
    let p := (p.reverse.takeWhile (· ≠ '/')).reverse
    -- If empty now, it had only slashes.
    if p = [] then ['/'] else p

/-- Go `path.Split`: the directory part, up to and including the final slash. -/
def SplitDir (path : Str) : Str :=
  (path.reverse.dropWhile (· ≠ '/')).reverse

/-! ## Strings and bytes -/

instance : Coe String Str := ⟨String.toList⟩

/-- The bytes of a Go string (its UTF-8 encoding). -/
def utf8 (s : Str) : Bytes := s.flatMap String.utf8EncodeChar

/-- Go `strconv.FormatInt(n, 10)` for a non-negative `n`. -/
def FormatNat (n : Nat) : Str := Nat.toDigits 10 n

/-! ## The asset store (`fs.Sub(staticFiles, "static")`) -/

/-- What a name of the store denotes: a directory, or a regular file with its bytes. -/
inductive Entry where
  | dir
  | file (data : Bytes)
deriving DecidableEq, Repr

/-- Whether an opened entry is a directory (`info.IsDir()`). -/
def Entry.IsDir : Entry → Bool
  | .dir => true
  | .file _ => false

/-- The immutable embedded tree, as the lookup of slash-separated names relative to its root. -/
abbrev FS := Str → Option Entry

/-- Go `fs.ValidPath`: every slash-separated element is non-empty and neither "." nor "..";
the single name "." is valid too.  (`utf8.ValidString` holds of every `Str`.) -/
def ValidPath (name : Str) : Bool :=
  if name = ['.'] then true
  else (name.splitOn '/').all (fun elem => elem ≠ [] ∧ elem ≠ ['.'] ∧ elem ≠ ['.', '.'])

/-- `staticFS.Open(name)`: `fs.Sub` rejects a name that is not a valid path before it
consults the embedded tree.  `none` is an error. -/
def FS.Open (fsys : FS) (name : Str) : Option Entry :=
  if ValidPath name then fsys name else none

/-- `fs.ReadFile(staticFS, name)`: the bytes of a regular file; an error for a missing name
and for a directory. -/
def FS.ReadFile (fsys : FS) (name : Str) : Option Bytes :=
  match fsys.Open name with
  | some (.file data) => some data
  | _ => none

/-! ## package net/http: requests and the response writer -/

/-- The fields of `*http.Request` the handlers read.  Requests carry no `Range` or
conditional headers. -/
structure Request where
  Method : Str
  Path : Str
  RawQuery : Str := []
deriving DecidableEq, Repr

/-- The response accumulated in an `http.ResponseWriter`: the header map, the status once
written, and the body written so far.  (No handler here sets a header after it has written
the status, so the header map is the header of the response.) -/
structure ResponseWriter where
  header : List (Str × Str) := []
  status : Option Nat := none
  body : Bytes := []
deriving DecidableEq, Repr

/-- An `http.Handler`: `ServeHTTP(w, r)` as a transformer of the response writer. -/
abbrev Handler := ResponseWriter → Request → ResponseWriter

/-- `w.Header().Get(key)` (every key used here is in canonical form already). -/
def ResponseWriter.Get (w : ResponseWriter) (key : Str) : Option Str :=
  (w.header.find? (fun kv => kv.1 = key)).map (fun kv => kv.2)

/-- `w.Header().Set(key, value)`: replaces whatever the key held. -/
def ResponseWriter.Set (w : ResponseWriter) (key value : Str) : ResponseWriter :=
  { w with header := (key, value) :: w.header.filter (fun kv => kv.1 ≠ key) }

/-- `w.WriteHeader(code)`: the first status written stands. -/
def ResponseWriter.WriteHeader (w : ResponseWriter) (code : Nat) : ResponseWriter :=
  match w.status with
  | some _ => w
  | none => { w with status := some code }

/-- `w.Write(data)`: writes status 200 first if none was written. -/
def ResponseWriter.Write (w : ResponseWriter) (data : Bytes) : ResponseWriter :=
  let w := w.WriteHeader 200
  { w with body := w.body ++ data }

/-- `w.Header().Del(key)`. -/
def ResponseWriter.Del (w : ResponseWriter) (key : Str) : ResponseWriter :=
  { w with header := w.header.filter (fun kv => kv.1 ≠ key) }

/-- Go `http.Error(w, error, code)`. -/
def Error (w : ResponseWriter) (error : Str) (code : Nat) : ResponseWriter :=
  let w := w.Del "Content-Length"
  let w := w.Set "Content-Type" "text/plain; charset=utf-8"
  let w := w.Set "X-Content-Type-Options" "nosniff"
  let w := w.WriteHeader code
  w.Write (utf8 (error ++ ['\n']))

/-- Go `http.NotFound(w, r)`. -/
def NotFound (w : ResponseWriter) (_r : Request) : ResponseWriter :=
  Error w "404 page not found" 404

/-! ## package net/http: Redirect -/

/-- The fields of a parsed `url.URL` that `http.Redirect` reads. -/
structure URL where
  Scheme : Str
  Host : Str
deriving DecidableEq, Repr

/-- Standard-library routines taken as parameters. -/
structure Lib where
  /-- Go `net/url.Parse`; `none` is a parse error. -/
  urlParse : Str → Option URL
  /-- The Content-Type `http.ServeContent` chooses for a file name and its content
  (`mime.TypeByExtension`, else `http.DetectContentType`). -/
  contentType : Str → Bytes → Str
  /-- Go `dirList`: the listing written for the directory of the given name. -/
  dirList : Str → ResponseWriter → ResponseWriter

/-- Go `htmlEscape` of net/http: the replacer of `&`, `<`, `>`, the double quote (34) and the
apostrophe (39). -/
def htmlEscape (s : Str) : Str :=
  s.flatMap (fun c =>
    if c = '&' then "&amp;".toList
    else if c = '<' then "&lt;".toList
    else if c = '>' then "&gt;".toList
    else if c = Char.ofNat 34 then "&#34;".toList
    else if c = Char.ofNat 39 then "&#39;".toList
    else [c])

/-- Go `hexEscapeNonASCII`: every byte at or above 0x80 becomes `%` and its two lower-case
hexadecimal digits. -/
def hexEscapeNonASCII (s : Str) : Str :=
  s.flatMap (fun c =>
    if c.toNat < 128 then [c]
    else (String.utf8EncodeChar c).flatMap (fun b => '%' :: Nat.toDigits 16 b.toNat))

/-- Go `http.StatusText` for the codes used here. -/
def StatusText (code : Nat) : Str :=
  if code = 301 then "Moved Permanently" else if code = 404 then "Not Found" else []

/-- The target `http.Redirect` computes from its `url` argument before it writes the
Location header. -/
def redirectTarget (lib : Lib) (r : Request) (url : Str) : Str :=
  match lib.urlParse url with
  | none => url
  | some u =>
    -- If url was relative, make its path absolute by combining with request path.
    if u.Scheme = [] ∧ u.Host = [] then
      let oldpath := if r.Path = [] then ['/'] else r.Path
      -- no leading http://server
      let url := if url = [] ∨ url.head? ≠ some '/' then SplitDir oldpath ++ url else url
      let i := url.indexOf '?'
      let query := url.drop i
      let url := url.take i
      -- clean up but preserve trailing slash
      let trailing := HasSuffix url "/"
      let url := Clean url
      let url := if trailing ∧ ¬ HasSuffix url "/" then url ++ ['/'] else url
      url ++ query
    else url

/-- Go `http.Redirect(w, r, url, code)`. -/
def Redirect (lib : Lib) (w : ResponseWriter) (r : Request) (url : Str) (code : Nat) :
    ResponseWriter :=
  let url := redirectTarget lib r url
  let hadCT := (w.Get "Content-Type").isSome
  let w := w.Set "Location" (hexEscapeNonASCII url)
  let w := if !hadCT ∧ (r.Method = "GET" ∨ r.Method = "HEAD") then
      w.Set "Content-Type" "text/html; charset=utf-8" else w
  let w := w.WriteHeader code
  -- Shouldn't send the body for POST or HEAD; that leaves GET.
  if !hadCT ∧ r.Method = "GET" then
    w.Write (utf8 ("<a href=".toList ++ [Char.ofNat 34] ++ htmlEscape url ++ [Char.ofNat 34, '>']
      ++ StatusText code
      ++ "</a>.\n".toList ++ ['\n']))
  else w

/-! ## package net/http: the file server -/

/-- Go `localRedirect`: a 301 whose Location is `newPath`, kept relative. -/
def localRedirect (w : ResponseWriter) (r : Request) (newPath : Str) : ResponseWriter :=
  let newPath := if r.RawQuery ≠ [] then newPath ++ ['?'] ++ r.RawQuery else newPath
  (w.Set "Location" newPath).WriteHeader 301

/-- `http.FS(staticFS).Open(name)`: the root "/" is opened as ".", any other name without
its leading slash. -/
def ioFSOpen (fsys : FS) (name : Str) : Option Entry :=
  if name = ['/'] then fsys.Open ['.'] else fsys.Open (TrimPrefix name "/")

/-- Go `serveContent` for a request without `Range` or conditional headers and a file of
zero modification time (as every embedded file is): status 200 and the whole content. -/
def serveContent (lib : Lib) (w : ResponseWriter) (r : Request) (name : Str) (data : Bytes) :
    ResponseWriter :=
  let w := if (w.Get "Content-Type").isSome then w
    else w.Set "Content-Type" (lib.contentType name data)
  let w := w.Set "Accept-Ranges" "bytes"
  let w := if (w.Get "Content-Encoding").getD [] = [] then
      w.Set "Content-Length" (FormatNat data.length) else w
  let w := w.WriteHeader 200
  if r.Method ≠ "HEAD" then w.Write data else w

/-- Go `serveFile(w, r, fs, name, redirect)` with `redirect = true`, as the file server
calls it.  Every failure to open is answered as `fs.ErrNotExist` (404), by `http.Error`
(from Go 1.23 on `serveError` also deletes Cache-Control and three more headers there; the
static handler forwards only names it has opened, so it never reaches that branch). -/
def serveFile (lib : Lib) (fsys : FS) (w : ResponseWriter) (r : Request) (name : Str) :
    ResponseWriter :=
  -- redirect .../index.html to .../
  if HasSuffix r.Path "/index.html" then localRedirect w r "./"
  else
    match ioFSOpen fsys name with
    | none => Error w "404 page not found" 404
    | some (.file data) =>
      -- redirect to canonical path: no / at end of a file url
      if r.Path.getLast? = some '/' then
        let base := Base r.Path
        if base = ['/'] ∨ base = ['.'] then
          Error w "http: attempting to traverse a non-directory" 500
        else localRedirect w r ("../".toList ++ base)
      else serveContent lib w r (Base name) data
    | some .dir =>
      -- redirect to canonical path: / at end of directory url
      if r.Path.getLast? ≠ some '/' then localRedirect w r (Base r.Path ++ ['/'])
      else
        -- use contents of index.html for directory, if present
        let index := TrimSuffix name "/" ++ "/index.html".toList
        match ioFSOpen fsys index with
        | some (.file data) => serveContent lib w r "index.html" data
        | some .dir => lib.dirList index w
        | none => lib.dirList name w

/-- Go `http.FileServer(http.FS(staticFS))`: `fileHandler.ServeHTTP`. -/
def FileServer (lib : Lib) (fsys : FS) : Handler := fun w r =>
  let upath := if HasPrefix r.Path "/" then r.Path else '/' :: r.Path
  let r := { r with Path := upath }
  serveFile lib fsys w r (Clean upath)

/-! ## static.go: the static handler -/

/-- The relative name the static handler looks up for a request path other than "/"
(static.go, lines 48-50):
`cleaned := path.Clean("/" + strings.TrimPrefix(reqPath, "/"))`,
`requestedFile = strings.TrimPrefix(cleaned, "/")`. -/
def candidate (reqPath : Str) : Str :=
  let cleaned := Clean ('/' :: TrimPrefix reqPath "/")
  TrimPrefix cleaned "/"

/-- The index document with its headers, as both index branches of the handler write it. -/
def writeIndex (w : ResponseWriter) (data : Bytes) : ResponseWriter :=
  let w := w.Set "Content-Type" "text/html; charset=utf-8"
  let w := w.Set "Cache-Control" "no-cache, no-store, must-revalidate"
  w.Write data

/-- The handler function `StaticHandler` returns (static.go, lines 26-100), over the
sub-filesystem `staticFS` and the file server it closes over. -/
def StaticHandlerFunc (lib : Lib) (staticFS : FS) (fileServer : Handler) : Handler := fun w r =>
  -- Get the requested path
  let reqPath := r.Path
  if reqPath = "/" then
    -- Serve index.html directly to avoid FileServer directory redirects
    match staticFS.ReadFile "index.html" with
    | none => Error w "index.html not found" 404
    | some data => writeIndex w data
  else
    -- Clean the path and prevent path traversal
    let requestedFile := candidate reqPath
    -- Try to open the file in the embedded static filesystem
    match staticFS.Open requestedFile with
    | none =>
      -- If file doesn't exist: for asset-like paths (with an extension), return 404.
      -- Otherwise, serve index.html for SPA client-side routes.
      if Contains requestedFile "." then NotFound w r
      else
        match staticFS.ReadFile "index.html" with
        | none => NotFound w r
        | some data => writeIndex w data
    | some file =>
      -- If it's a directory, ensure trailing slash to avoid redirect loops
      if file.IsDir ∧ ¬ HasSuffix r.Path "/" then
        Redirect lib w r (r.Path ++ ['/']) 301
      else
        -- Create a new request with the correct path for the file server
        let newReq := { r with Path := '/' :: requestedFile }
        -- Set caching headers: long cache for assets, no-cache for index.html
        let w := if requestedFile = "index.html" then
            w.Set "Cache-Control" "no-cache, no-store, must-revalidate"
          else
            -- One year cache with immutable for versioned assets
            w.Set "Cache-Control" "public, max-age=31536000, immutable"
        -- Serve the file using the file server
        fileServer w newReq

/-- Go `(*Server).StaticHandler`: the handler over the embedded tree and its file server. -/
def StaticHandler (lib : Lib) (staticFS : FS) : Handler :=
  StaticHandlerFunc lib staticFS (FileServer lib staticFS)

/-! ## routes.go: CORS middleware and API router -/

/-- Go `corsMiddleware(next)` (routes.go, lines 28-55).  The log lines, which carry the
remote address and elapsed time, are not part of the response and are left out. -/
def corsMiddleware (next : Handler) : Handler := fun w r =>
  -- Set CORS headers
  let w := w.Set "Access-Control-Allow-Origin" "*"
  let w := w.Set "Access-Control-Allow-Methods" "GET, POST, PUT, DELETE, OPTIONS, PATCH"
  let w := w.Set "Access-Control-Allow-Headers"
    "Accept, Authorization, Content-Type, X-CSRF-Token"
  let w := w.Set "Access-Control-Allow-Credentials" "false"
  -- Handle preflight OPTIONS requests
  if r.Method = "OPTIONS" then w.WriteHeader 204
  else
    -- Proceed with the next handler
    next w r

/-- Go `json.Marshal` of one string: quoted, with the escapes of the encoder (HTML-safe
mode, which `Marshal` uses; the short escapes of backspace and form feed are those of
Go 1.22 and later). -/
def jsonString (s : Str) : Str :=
  [Char.ofNat 34] ++ s.flatMap (fun c =>
    if c = '\\' ∨ c = Char.ofNat 34 then ['\\', c]
    else if c = Char.ofNat 8 then ['\\', 'b']
    else if c = Char.ofNat 12 then ['\\', 'f']
    else if c = '\n' then ['\\', 'n']
    else if c = '\r' then ['\\', 'r']
    else if c = '\t' then ['\\', 't']
    else if c.toNat < 32 ∨ c = '<' ∨ c = '>' ∨ c = '&' ∨ c.toNat = 0x2028 ∨ c.toNat = 0x2029 then
      let h := Nat.toDigits 16 c.toNat
      ['\\', 'u'] ++ List.replicate (4 - h.length) '0' ++ h
    else [c]) ++ [Char.ofNat 34]

/-- Go `json.Marshal` of a `map[string]string`: the entries in key order, no white space.
Marshalling such a map cannot fail; `none` stands for the error the caller tests. -/
def Marshal (m : List (Str × Str)) : Option Bytes :=
  let sorted := m.insertionSort (fun a b => String.mk a.1 ≤ String.mk b.1)
  let fields := sorted.map (fun kv => jsonString kv.1 ++ [':'] ++ jsonString kv.2)
  some (utf8 ([Char.ofNat 0x7b] ++ [','].intercalate fields ++ [Char.ofNat 0x7d]))

/-- Go `HelloWorldHandler` (routes.go, lines 73-84). -/
def HelloWorldHandler : Handler := fun w _r =>
  let resp : List (Str × Str) := [("message", "sampha API is running")]
  match Marshal resp with
  | none => Error w "failed to marshal response" 500
  | some jsonResp =>
    let w := w.Set "Content-Type" "application/json"
    w.Write jsonResp

/-- The `switch` of `apiHandler` (routes.go, lines 57-71) over the handler of its one route. -/
def apiRoute (hello : Handler) : Handler := fun w r =>
  -- Route API requests based on path
  let path := TrimPrefix r.Path "/api"
  if path = "/" then hello w r
  else NotFound w r

/-- Go `apiHandler`. -/
def apiHandler : Handler := apiRoute HelloWorldHandler

/-! ## server.go: the port -/

/-- The two kinds of `*strconv.NumError`. -/
inductive NumError where
  | ErrSyntax
  | ErrRange
deriving DecidableEq, Repr

/-- The value of a byte read as a decimal digit. -/
def digitVal (c : Char) : Option Nat :=
  if '0' ≤ c ∧ c ≤ '9' then some (c.toNat - '0'.toNat) else none

/-- The digit loop of Go `strconv.ParseUint(s, 10, 64)` from the accumulator `n` on:
the first byte that is no decimal digit is a syntax error; an accumulator that would
pass `maxUint64` is a range error, reported with `maxVal` before the rest is read. -/
def parseUintLoop : Str → Nat → Nat × Option NumError
  | [], n => (n, none)
  | c :: rest, n =>
    match digitVal c with
    | none => (0, some .ErrSyntax)
    | some d =>
      let cutoff := (2 ^ 64 - 1) / 10 + 1
      let maxVal := 2 ^ 64 - 1
      if n ≥ cutoff then
        -- n*base overflows
        (maxVal, some .ErrRange)
      else
        let n := (n * 10) % 2 ^ 64
        let n1 := (n + d) % 2 ^ 64
        if n1 < n ∨ n1 > maxVal then
          -- n+d overflows
          (maxVal, some .ErrRange)
        else parseUintLoop rest n1

/-- Go `strconv.ParseUint(s, 10, 64)`. -/
def ParseUint (s : Str) : Nat × Option NumError :=
  if s = [] then (0, some .ErrSyntax) else parseUintLoop s 0

/-- Go `strconv.ParseInt(s, 10, 0)` where `int` has 64 bits. -/
def ParseInt (s : Str) : Int × Option NumError :=
  if s = [] then (0, some .ErrSyntax)
  else
    -- Pick off leading sign.
    let neg := decide (s.head? = some '-')
    let s1 := if s.head? = some '+' ∨ s.head? = some '-' then s.drop 1 else s
    -- Convert unsigned and check range.
    match ParseUint s1 with
    | (_, some .ErrSyntax) => (0, some .ErrSyntax)
    | (un, _) =>
      let cutoff := 2 ^ 63
      if !neg ∧ un ≥ cutoff then ((cutoff : Int) - 1, some .ErrRange)
      else if neg ∧ un > cutoff then (-(cutoff : Int), some .ErrRange)
      else (if neg then -(un : Int) else (un : Int), none)

/-- The digit loop of the fast path of `strconv.Atoi`. -/
def atoiFastLoop : Str → Nat → Option Nat
  | [], n => some n
  | c :: rest, n =>
    match digitVal c with
    | none => none
    | some d => atoiFastLoop rest (n * 10 + d)

/-- Go `strconv.Atoi` where `int` has 64 bits: the value and the error. -/
def Atoi (s : Str) : Int × Option NumError :=
  let sLen := (utf8 s).length
  if 0 < sLen ∧ sLen < 19 then
    -- Fast path for small integers that fit int type.
    let s1 := if s.head? = some '-' ∨ s.head? = some '+' then s.drop 1 else s
    if s1.length < 1 then (0, some .ErrSyntax)
    else
      match atoiFastLoop s1 0 with
      | none => (0, some .ErrSyntax)
      | some n => (if s.head? = some '-' then -(n : Int) else (n : Int), none)
  else
    -- Slow path for invalid, big, or underscored integers.
    ParseInt s

/-- The `Server` configuration: its port. -/
structure Server where
  port : Int
deriving DecidableEq, Repr

/-- Go `NewServer` (server.go, lines 16-29), over the value `os.Getenv("PORT")` returns
(empty when the variable is absent). -/
def NewServer (portEnv : Str) : Server :=
  let port := (Atoi portEnv).1
  let port := if port = 0 then 8080 else port -- default port
  { port := port }

/-! ## main.go: the lifecycle -/

/-- Where the main goroutine stands (main.go, lines 34-61). -/
inductive MainPC where
  /-- inside `server.ListenAndServe()` (line 50), which blocks while the server serves -/
  | listenAndServe
  /-- at `<-done` (line 57) -/
  | waitDone
  /-- returned from `main` -/
  | returned
deriving DecidableEq, Repr

/-- Where the goroutine running `gracefulShutdown` stands (main.go, lines 15-32). -/
inductive ShutdownPC where
  /-- at `<-ctx.Done()` (line 21) -/
  | waitSignal
  /-- past line 21, before `stop()` (line 26) -/
  | beforeStop
  /-- past `stop()`, before `done <- true` (line 31) -/
  | beforeSend
  /-- returned -/
  | returned
deriving DecidableEq, Repr

/-- How the process ended. -/
inductive Exit where
  /-- `main` returned (status 0) or `log.Fatalf` called `os.Exit(1)` -/
  | status (code : Nat)
  /-- the process died of a signal left to its default disposition -/
  | killed
deriving DecidableEq, Repr

/-- The state of the running process. -/
structure Proc where
  main : MainPC
  shutdown : ShutdownPC
  /-- the registration of `signal.NotifyContext` is in force -/
  notify : Bool
  /-- `ctx` is cancelled -/
  ctxDone : Bool
  /-- the values buffered in `done`, a channel of capacity 1 -/
  done : Nat
  /-- the `http.Server` created in `Server.ListenAndServe` accepts connections -/
  serving : Bool
  /-- how the process ended, once it has -/
  exit : Option Exit
deriving DecidableEq, Repr

/-- What can happen next. -/
inductive Event where
  /-- the system delivers SIGINT or SIGTERM -/
  | signal
  /-- the goroutine of `gracefulShutdown` runs its next statement -/
  | shutdownStep
  /-- the main goroutine runs its next statement -/
  | mainStep
  /-- the listener fails with an error other than `http.ErrServerClosed` -/
  | listenerError
deriving DecidableEq, Repr

/-- The next statement of `gracefulShutdown` (main.go, lines 15-32): it waits for the
context to be cancelled, calls `stop()`, which ends the registration, and sends on `done`.
It calls neither `Shutdown` nor `Close` on the server, which is not in its scope. -/
def gracefulShutdown (s : Proc) : Proc :=
  match s.shutdown with
  | .waitSignal => if s.ctxDone then { s with shutdown := .beforeStop } else s
  | .beforeStop => { s with shutdown := .beforeSend, notify := false }
  | .beforeSend => if s.done < 1 then { s with shutdown := .returned, done := s.done + 1 } else s
  | .returned => s

/-- The next statement of `main` from `server.ListenAndServe()` on (main.go, lines 50-61).
`ListenAndServe` returns `http.ErrServerClosed` only once the server has stopped serving,
after `Shutdown` or `Close`; then `main` waits for `done` and returns. -/
def main (s : Proc) : Proc :=
  match s.main with
  | .listenAndServe => if s.serving then s else { s with main := .waitDone }
  | .waitDone =>
    if 0 < s.done then
      { s with main := .returned, done := s.done - 1, exit := some (.status 0) }
    else s
  | .returned => s

/-- One step of the process.  A signal cancels the context while the registration is in
force and kills the process otherwise; an error of the listener makes `ListenAndServe`
return it, on which `log.Fatalf` exits with status 1 (main.go, lines 52-54). -/
def step (s : Proc) : Event → Proc
  | .signal =>
    if s.exit.isSome then s
    else if s.notify then { s with ctxDone := true }
    else { s with exit := some .killed }
  | .shutdownStep => if s.exit.isSome then s else gracefulShutdown s
  | .mainStep => if s.exit.isSome then s else main s
  | .listenerError =>
    if s.exit.isSome then s
    else match s.main with
      | .listenAndServe => { s with exit := some (.status 1) }
      | _ => s

/-- Go `(*http.Server).Shutdown`: the server stops accepting connections, so that
`ListenAndServe` returns `http.ErrServerClosed`.  No step of the process takes it. -/
def Shutdown (s : Proc) : Proc := { s with serving := false }

/-- The process after a sequence of events. -/
def run (s : Proc) (es : List Event) : Proc := es.foldl step s

/-- The process once it serves: `main` inside `ListenAndServe`, `gracefulShutdown` waiting
for the signal, `done` empty. -/
def servingProc : Proc :=
  { main := .listenAndServe, shutdown := .waitSignal, notify := true, ctxDone := false,
    done := 0, serving := true, exit := none }

/-- A store holding an index document, a placeholder file and an `assets` directory with
one file, shaped like the embedded tree (`static/index.html static/.keep static/assets/*`). -/
def sampleFS : FS := fun name =>
  if name = "index.html" then some (.file (utf8 "<html></html>"))
  else if name = ".keep" then some (.file [])
  else if name = "assets" then some .dir
  else if name = "assets/app.js" then some (.file (utf8 "run()"))
  else if name = "." then some .dir
  else none

/-- A store in which the name "index.html" denotes a directory. -/
def indexDirFS : FS := fun name =>
  if name = "index.html" then some .dir
  else if name = "." then some .dir
  else none

/-- Go `getScheme` of net/url from byte `i` on: the scheme before the first ':' and the
rest after it; no scheme when a byte that cannot belong to one comes first.  `none` is the
error "missing protocol scheme". -/
def getSchemeLoop (rawURL : Str) : Nat → Str → Option (Str × Str)
  | _, [] => some ([], rawURL)
  | i, c :: rest =>
    if c.isAlpha then getSchemeLoop rawURL (i + 1) rest
    else if c.isDigit ∨ c = '+' ∨ c = '-' ∨ c = '.' then
      if i = 0 then some ([], rawURL) else getSchemeLoop rawURL (i + 1) rest
    else if c = ':' then
      if i = 0 then none else some (rawURL.take i, rest)
    else some ([], rawURL)

/-- How Go `url.Parse` splits a reference into scheme and host: the fragment and the query
are cut off, a control character is an error, a scheme is read by `getScheme`, a first path
segment with a colon in a reference without scheme is an error, and a leading "//" (but not
"///" without scheme) starts the authority, whose host follows the last '@'.  The
validation of escapes, of the host and of the user info is left out. -/
def splitURL (rawURL : Str) : Option URL :=
  let u := rawURL.takeWhile (· ≠ '#')
  if u.any (fun c => c.toNat < 32 ∨ c.toNat = 127) then none
  else if u = ['*'] then some ⟨[], []⟩
  else
    match getSchemeLoop u 0 u with
    | none => none
    | some (scheme, rest) =>
      let rest := rest.takeWhile (· ≠ '?')
      if ¬ HasPrefix rest "/" then
        if scheme ≠ [] then some ⟨scheme, []⟩
        else if ':' ∈ rest.takeWhile (· ≠ '/') then none
        else some ⟨[], []⟩
      else if (scheme ≠ [] ∨ ¬ HasPrefix rest "///") ∧ HasPrefix rest "//" then
        let authority := (rest.drop 2).takeWhile (· ≠ '/')
        some ⟨scheme, (authority.reverse.takeWhile (· ≠ '@')).reverse⟩
      else some ⟨scheme, []⟩

/-- A library instance for the examples: `splitURL` for `url.Parse`, one fixed Content-Type,
an empty directory listing. -/
def sampleLib : Lib where
  urlParse := splitURL
  contentType := fun _ _ => "application/octet-stream"
  dirList := fun _ w => w

/-! ## Specification vocabulary -/

/-- A real path element: non-empty, without a slash, and neither "." nor "..". -/
def RealElem (s : Str) : Prop := s ≠ [] ∧ '/' ∉ s ∧ s ≠ ['.'] ∧ s ≠ ['.', '.']

/-- The buffer of `path.Clean` on a rooted path, read as a stack of elements (the last
element first): the leading slash, then the elements separated by single slashes. -/
def rootedBuf : List Str → Str
  | [] => ['/']
  | s :: stack => (if stack = [] then rootedBuf stack else rootedBuf stack ++ ['/']) ++ s

/-- The rooted path with the given elements: each preceded by one slash. -/
def pathOf (segs : List Str) : Str := segs.flatMap (fun s => '/' :: s)

/-- A path in clean form other than the root: its elements are real, and there is one. -/
def CleanForm (P : Str) : Prop :=
  ∃ segs : List Str, segs ≠ [] ∧ (∀ s ∈ segs, RealElem s) ∧ P = pathOf segs

/-- A path-absolute reference: it begins with exactly one "/". -/
def pathAbsolute (loc : Str) : Bool :=
  match loc with
  | '/' :: t => t.head? ≠ some '/'
  | _ => false

/-- The clean-up `http.Redirect` applies to a target that already begins with "/": the
query is split off, the path cleaned with its trailing slash preserved. -/
def cleanedTarget (url : Str) : Str :=
  let i := url.indexOf '?'
  let cleaned := Clean (url.take i)
  (if HasSuffix (url.take i) "/" ∧ ¬ HasSuffix cleaned "/" then cleaned ++ ['/'] else cleaned)
    ++ url.drop i

/-- The text after an optional leading sign. -/
def signBody (s : Str) : Str :=
  if s.head? = some '+' ∨ s.head? = some '-' then s.drop 1 else s

/-- The number a run of decimal digits denotes, continuing from `n`. -/
def natValueFrom (n : Nat) (s : Str) : Nat :=
  s.foldl (fun acc c => acc * 10 + (digitVal c).getD 0) n

/-- A decimal integer: an optional sign followed by one or more decimal digits. -/
def isDecimalInteger (s : Str) : Bool :=
  signBody s ≠ [] ∧ (signBody s).all (fun c => (digitVal c).isSome)

/-- The integer a decimal integer denotes. -/
def intValue (s : Str) : Int :=
  if s.head? = some '-' then -(natValueFrom 0 (signBody s) : Int) else natValueFrom 0 (signBody s)

/-- The run of digits before the first character that is none (after an optional sign). -/
def leadingDigits (s : Str) : Str :=
  (signBody s).takeWhile (fun c => (digitVal c).isSome)

/-! ## Response writer lemmas -/

@[simp] theorem status_Set (w : ResponseWriter) (k v : Str) : (w.Set k v).status = w.status := rfl

@[simp] theorem body_Set (w : ResponseWriter) (k v : Str) : (w.Set k v).body = w.body := rfl

@[simp] theorem Get_Set_self (w : ResponseWriter) (k v : Str) : (w.Set k v).Get k = some v := by
  simp [ResponseWriter.Get, ResponseWriter.Set]

theorem find_filter_ne (k k1 : Str) (h : k ≠ k1) (l : List (Str × Str)) :
    (l.filter (fun kv => kv.1 ≠ k)).find? (fun kv => kv.1 = k1) = l.find? (fun kv => kv.1 = k1) := by
  induction l with
  | nil => rfl
  | cons a l ih =>
    by_cases hk : a.1 = k1
    · have ha : a.1 ≠ k := fun e => h (e ▸ hk)
      rw [List.filter_cons_of_pos (by simpa using ha), List.find?_cons_of_pos _ (by simpa using hk),
        List.find?_cons_of_pos _ (by simpa using hk)]
    · rw [List.find?_cons_of_neg _ (by simpa using hk)]
      by_cases ha : a.1 = k
      · rw [List.filter_cons_of_neg (by simpa using ha)]; exact ih
      · rw [List.filter_cons_of_pos (by simpa using ha), List.find?_cons_of_neg _ (by simpa using hk)]
        exact ih

theorem Get_Set_ne (w : ResponseWriter) (k k1 v : Str) (h : k ≠ k1) :
    (w.Set k v).Get k1 = w.Get k1 := by
  simp only [ResponseWriter.Get, ResponseWriter.Set]
  congr 1
  rw [List.find?_cons_of_neg _ (by simpa using h)]
  exact find_filter_ne k k1 h w.header

@[simp] theorem header_WriteHeader (w : ResponseWriter) (c : Nat) :
    (w.WriteHeader c).header = w.header := by
  unfold ResponseWriter.WriteHeader; split <;> rfl

@[simp] theorem body_WriteHeader (w : ResponseWriter) (c : Nat) :
    (w.WriteHeader c).body = w.body := by
  unfold ResponseWriter.WriteHeader; split <;> rfl

theorem status_WriteHeader (w : ResponseWriter) (c : Nat) (h : w.status = none) :
    (w.WriteHeader c).status = some c := by
  unfold ResponseWriter.WriteHeader; rw [h]

theorem status_WriteHeader_some (w : ResponseWriter) (c d : Nat) (h : w.status = some d) :
    (w.WriteHeader c).status = some d := by
  unfold ResponseWriter.WriteHeader; rw [h]; exact h

@[simp] theorem Get_WriteHeader (w : ResponseWriter) (c : Nat) (k : Str) :
    (w.WriteHeader c).Get k = w.Get k := by
  simp [ResponseWriter.Get]

@[simp] theorem Get_Write (w : ResponseWriter) (d : Bytes) (k : Str) :
    (w.Write d).Get k = w.Get k := by
  simp [ResponseWriter.Get, ResponseWriter.Write]

theorem status_Write (w : ResponseWriter) (d : Bytes) (h : w.status = none) :
    (w.Write d).status = some 200 := by
  simp [ResponseWriter.Write, status_WriteHeader _ _ h]

theorem status_Write_some (w : ResponseWriter) (d : Bytes) (c : Nat) (h : w.status = some c) :
    (w.Write d).status = some c := by
  simp [ResponseWriter.Write, status_WriteHeader_some _ _ _ h]

@[simp] theorem body_Write (w : ResponseWriter) (d : Bytes) : (w.Write d).body = w.body ++ d := by
  simp [ResponseWriter.Write]

theorem status_Error (w : ResponseWriter) (e : Str) (c : Nat) (h : w.status = none) :
    (Error w e c).status = some c := by
  unfold Error
  exact status_Write_some _ _ _ (status_WriteHeader _ _ (by simpa [ResponseWriter.Del] using h))

theorem status_NotFound (w : ResponseWriter) (r : Request) (h : w.status = none) :
    (NotFound w r).status = some 404 := status_Error w _ 404 h

theorem writeIndex_spec (w : ResponseWriter) (data : Bytes) (hw : w.status = none)
    (hb : w.body = []) :
    (writeIndex w data).status = some 200 ∧ (writeIndex w data).body = data ∧
    (writeIndex w data).Get "Content-Type" = some "text/html; charset=utf-8".toList ∧
    (writeIndex w data).Get "Cache-Control" = some "no-cache, no-store, must-revalidate".toList := by
  refine ⟨?_, ?_, ?_, ?_⟩
  · exact status_Write _ _ (by simpa using hw)
  · simp [writeIndex, hb]
  · simp only [writeIndex, Get_Write]
    rw [Get_Set_ne _ _ _ _ (by decide)]
    exact Get_Set_self _ _ _
  · simp only [writeIndex, Get_Write]
    exact Get_Set_self _ _ _

theorem Contains_dot (s : Str) : Contains s "." = true ↔ '.' ∈ s := by
  unfold Contains
  induction s with
  | nil => decide
  | cons a l ih =>
    rw [List.tails_cons, List.any_cons, Bool.or_eq_true, ih]
    have : List.isPrefixOf (".".toList) (a :: l) = true ↔ a = '.' := by
      show List.isPrefixOf ['.'] (a :: l) = true ↔ a = '.'
      simp only [List.isPrefixOf, Bool.and_true, beq_iff_eq]
      exact eq_comm
    rw [this, List.mem_cons]
    constructor
    · rintro (h | h)
      · exact Or.inl h.symm
      · exact Or.inr h
    · rintro (h | h)
      · exact Or.inl h.symm
      · exact Or.inr h

/-! ## path.Clean on rooted paths -/

theorem cleanLoop_fuel (b : Bool) (f1 : Nat) : ∀ (f2 : Nat) (path out : Str) (d : Nat),
    path.length ≤ f1 → path.length ≤ f2 →
    cleanLoop b f1 path out d = cleanLoop b f2 path out d := by
  induction f1 with
  | zero =>
    intro f2 path out d h1 _
    have hp : path = [] := List.length_eq_zero.mp (Nat.le_zero.mp h1)
    subst hp
    cases f2 <;> simp [cleanLoop]
  | succ n ih =>
    intro f2 path out d h1 h2
    cases path with
    | nil => cases f2 <;> simp [cleanLoop]
    | cons c rest =>
      cases f2 with
      | zero => simp at h2
      | succ m =>
        have hr1 : rest.length ≤ n := by simpa using h1
        have hr2 : rest.length ≤ m := by simpa using h2
        have hd1 : (rest.drop 1).length ≤ n := by simp; omega
        have hd2 : (rest.drop 1).length ≤ m := by simp; omega
        have hw1 : (rest.dropWhile (· ≠ '/')).length ≤ n :=
          le_trans (List.dropWhile_sublist _).length_le hr1
        have hw2 : (rest.dropWhile (· ≠ '/')).length ≤ m :=
          le_trans (List.dropWhile_sublist _).length_le hr2
        simp only [cleanLoop]
        rw [ih m rest out d hr1 hr2, ih m (rest.drop 1) _ d hd1 hd2,
          ih m (rest.drop 1) out d hd1 hd2, ih m (rest.drop 1) _ _ hd1 hd2,
          ih m (rest.dropWhile (· ≠ '/')) _ d hw1 hw2]

theorem backtrackRev_stop_len (d : Nat) (base : List Char) (hb : base.length = d) :
    ∀ t : List Char, t ≠ [] → '/' ∉ t → backtrackRev d (t ++ base) = base := by
  intro t
  induction t with
  | nil => intro h; exact absurd rfl h
  | cons c t ih =>
    intro _ hs
    have hc : c ≠ '/' := fun e => hs (e ▸ List.mem_cons_self _ _)
    have ht : '/' ∉ t := fun m => hs (List.mem_cons_of_mem _ m)
    by_cases he : t = []
    · subst he
      simp [backtrackRev, hb]
    · have hl : (t ++ base).length > d := by
        have : 0 < t.length := List.length_pos.mpr he
        simp; omega
      show backtrackRev d (c :: (t ++ base)) = base
      rw [backtrackRev, if_pos ⟨hl, hc⟩]
      exact ih he ht

theorem backtrackRev_stop_slash (d : Nat) (base : List Char) (hb : d ≤ base.length) :
    ∀ t : List Char, '/' ∉ t → backtrackRev d (t ++ '/' :: base) = base := by
  intro t
  induction t with
  | nil => intro _; simp [backtrackRev]
  | cons c t ih =>
    intro hs
    have hc : c ≠ '/' := fun e => hs (e ▸ List.mem_cons_self _ _)
    have ht : '/' ∉ t := fun m => hs (List.mem_cons_of_mem _ m)
    have hl : (t ++ '/' :: base).length > d := by simp; omega
    show backtrackRev d (c :: (t ++ '/' :: base)) = base
    rw [backtrackRev, if_pos ⟨hl, hc⟩]
    exact ih ht

theorem rootedBuf_length_pos (stack : List Str) : 1 ≤ (rootedBuf stack).length := by
  induction stack with
  | nil => simp [rootedBuf]
  | cons s st ih =>
    unfold rootedBuf
    split <;> simp <;> omega

theorem rootedBuf_length_one (stack : List Str) (h : ∀ s ∈ stack, RealElem s) :
    (rootedBuf stack).length = 1 ↔ stack = [] := by
  cases stack with
  | nil => simp [rootedBuf]
  | cons s st =>
    have hs : 0 < s.length := List.length_pos.mpr (h s (List.mem_cons_self _ _)).1
    have := rootedBuf_length_pos st
    unfold rootedBuf
    split <;> simp <;> omega

theorem backtrack_rootedBuf (s : Str) (stack : List Str) (hs : RealElem s) :
    backtrack 1 (rootedBuf (s :: stack)) = rootedBuf stack := by
  have hne : s.reverse ≠ [] := by simpa using hs.1
  have hsl : '/' ∉ s.reverse := by simpa using hs.2.1
  unfold backtrack
  by_cases he : stack = []
  · subst he
    have : (rootedBuf [s]).reverse = s.reverse ++ ['/'] := by simp [rootedBuf]
    rw [this, backtrackRev_stop_len 1 ['/'] rfl _ hne hsl]
    rfl
  · have : (rootedBuf (s :: stack)).reverse = s.reverse ++ '/' :: (rootedBuf stack).reverse := by
      simp [rootedBuf, he]
    rw [this, backtrackRev_stop_slash 1 _ (by simpa using rootedBuf_length_pos stack) _ hsl]
    simp

theorem takeWhile_notSlash_no_slash (l : List Char) : '/' ∉ l.takeWhile (· ≠ '/') := by
  intro h
  have := List.mem_takeWhile_imp h
  simp at this

theorem realElem_of_default (c : Char) (rest : Str) (h1 : c ≠ '/')
    (h2 : ¬ (c = '.' ∧ (rest = [] ∨ rest.head? = some '/')))
    (h3 : ¬ (c = '.' ∧ rest.head? = some '.' ∧
      (rest.drop 1 = [] ∨ (rest.drop 1).head? = some '/'))) :
    RealElem (c :: rest.takeWhile (· ≠ '/')) := by
  refine ⟨by simp, ?_, ?_, ?_⟩
  · intro h
    rcases List.mem_cons.mp h with h | h
    · exact h1 h.symm
    · exact takeWhile_notSlash_no_slash rest h
  · intro h
    injection h with hc ht
    apply h2
    refine ⟨hc, ?_⟩
    cases rest with
    | nil => exact Or.inl rfl
    | cons a r =>
      right
      by_cases ha : a = '/'
      · simp [ha]
      · simp [List.takeWhile, ha] at ht
  · intro h
    injection h with hc ht
    apply h3
    cases rest with
    | nil => simp at ht
    | cons a r =>
      by_cases ha : a = '/'
      · simp [List.takeWhile, ha] at ht
      · simp only [List.takeWhile, ne_eq, ha, not_false_eq_true, decide_True] at ht
        injection ht with ha1 hr
        refine ⟨hc, by simp [ha1], ?_⟩
        cases r with
        | nil => exact Or.inl rfl
        | cons b r2 =>
          right
          by_cases hb : b = '/'
          · simp [hb]
          · simp [List.takeWhile, hb] at hr

theorem cleanLoop_rooted (fuel : Nat) : ∀ (path : Str) (stack : List Str),
    (∀ s ∈ stack, RealElem s) →
    ∃ stack1, (∀ s ∈ stack1, RealElem s) ∧
      cleanLoop true fuel path (rootedBuf stack) 1 = rootedBuf stack1 := by
  induction fuel with
  | zero => intro path stack h; exact ⟨stack, h, by simp [cleanLoop]⟩
  | succ n ih =>
    intro path stack h
    cases path with
    | nil => exact ⟨stack, h, by simp [cleanLoop]⟩
    | cons c rest =>
      simp only [cleanLoop, Bool.not_true, Bool.false_eq_true, if_false]
      split_ifs with h1 h2 h3 h4 h6
      · exact ih rest stack h
      · exact ih rest stack h
      · cases stack with
        | nil => simp [rootedBuf] at h4
        | cons s st =>
          rw [backtrack_rootedBuf s st (h s (List.mem_cons_self _ _))]
          exact ih _ st (fun x hx => h x (List.mem_cons_of_mem _ hx))
      · exact ih _ stack h
      · have hne : stack ≠ [] := by
          intro e
          rcases h6 with h6 | h6
          · exact h6.2 ((rootedBuf_length_one stack h).mpr e)
          · simp at h6
        have hre := realElem_of_default c rest h1 h2 h3
        have : rootedBuf stack ++ ['/'] ++ c :: rest.takeWhile (· ≠ '/')
            = rootedBuf ((c :: rest.takeWhile (· ≠ '/')) :: stack) := by
          simp [rootedBuf, hne]
        rw [this]
        exact ih _ _ (fun x hx => by
          rcases List.mem_cons.mp hx with e | e
          · exact e ▸ hre
          · exact h x e)
      · have he : stack = [] := by
          by_contra hne
          apply h6
          left
          refine ⟨trivial, ?_⟩
          intro hl
          exact hne ((rootedBuf_length_one stack h).mp hl)
        have hre := realElem_of_default c rest h1 h2 h3
        have : rootedBuf stack ++ c :: rest.takeWhile (· ≠ '/')
            = rootedBuf ((c :: rest.takeWhile (· ≠ '/')) :: stack) := by
          simp [rootedBuf, he]
        rw [this]
        exact ih _ _ (fun x hx => by
          rcases List.mem_cons.mp hx with e | e
          · exact e ▸ hre
          · exact h x e)

theorem Clean_rooted (x : Str) :
    ∃ stack, (∀ s ∈ stack, RealElem s) ∧ Clean ('/' :: x) = rootedBuf stack := by
  obtain ⟨stack, hs, he⟩ := cleanLoop_rooted (x.length + 1) x [] (by simp)
  refine ⟨stack, hs, ?_⟩
  have hl : (rootedBuf stack).length ≠ 0 := by
    have := rootedBuf_length_pos stack; omega
  simp only [Clean, decide_True, if_true, List.length_cons]
  have hb : rootedBuf [] = ['/'] := rfl
  rw [hb] at he
  rw [he, if_neg hl]

theorem intercalate_snoc (l : List Str) (s : Str) :
    ['/'].intercalate (l ++ [s]) = if l = [] then s else ['/'].intercalate l ++ '/' :: s := by
  induction l with
  | nil => simp [List.intercalate]
  | cons a l ih =>
    cases l with
    | nil => simp [List.intercalate]
    | cons b l =>
      simp only [List.intercalate, List.cons_append, List.intersperse, List.flatten_cons] at ih ⊢
      simp only [List.cons_ne_nil, if_false] at ih
      simp [ih]

theorem rootedBuf_eq (stack : List Str) :
    rootedBuf stack = '/' :: ['/'].intercalate stack.reverse := by
  induction stack with
  | nil => simp [rootedBuf, List.intercalate]
  | cons s st ih =>
    rw [List.reverse_cons, intercalate_snoc, rootedBuf, ih]
    by_cases he : st = []
    · subst he; simp [List.intercalate]
    · simp [he]

theorem TrimPrefix_slash (t : Str) : TrimPrefix ('/' :: t) "/" = t := by
  show TrimPrefix ('/' :: t) ['/'] = t
  simp [TrimPrefix, HasPrefix, List.isPrefixOf]

theorem candidate_spec (P : Str) :
    ∃ segs : List Str, (∀ s ∈ segs, RealElem s) ∧ candidate P = ['/'].intercalate segs ∧
      Clean ('/' :: TrimPrefix P "/") = '/' :: candidate P := by
  obtain ⟨stack, hs, he⟩ := Clean_rooted (TrimPrefix P "/")
  refine ⟨stack.reverse, fun s h => hs s (List.mem_reverse.mp h), ?_, ?_⟩
  · simp only [candidate]
    rw [he, rootedBuf_eq, TrimPrefix_slash]
  · simp only [candidate]
    rw [he, rootedBuf_eq, TrimPrefix_slash]

theorem intercalate_head (segs : List Str) (h : ∀ s ∈ segs, RealElem s) :
    (['/'].intercalate segs).head? ≠ some '/' := by
  cases segs with
  | nil => simp [List.intercalate]
  | cons a l =>
    have ha := h a (List.mem_cons_self _ _)
    cases a with
    | nil => exact absurd rfl ha.1
    | cons c a =>
      have hc : c ≠ '/' := fun e => ha.2.1 (e ▸ List.mem_cons_self _ _)
      cases l <;> simp [List.intercalate, List.intersperse, hc]

theorem intercalate_getLast (segs : List Str) (h : ∀ s ∈ segs, RealElem s) :
    (['/'].intercalate segs).getLast? ≠ some '/' := by
  rcases List.eq_nil_or_concat segs with e | ⟨l, s, e⟩
  · subst e; simp [List.intercalate]
  · subst e
    have hs := h s (by simp)
    rw [List.concat_eq_append, intercalate_snoc]
    have hl : s.getLast? ≠ some '/' := by
      intro e
      exact hs.2.1 (List.mem_of_getLast?_eq_some e)
    have hne : s ≠ [] := hs.1
    split
    · exact hl
    · rw [show ['/'].intercalate l ++ '/' :: s = (['/'].intercalate l ++ ['/']) ++ s by simp,
        List.getLast?_append_of_ne_nil _ hne]
      exact hl

theorem intercalate_splitOn_real (segs : List Str) (h : ∀ s ∈ segs, RealElem s) :
    ∀ e ∈ (['/'].intercalate segs).splitOn '/', e = [] ∨ RealElem e := by
  intro e he
  by_cases hn : segs = []
  · subst hn
    left
    simpa [List.intercalate] using he
  · rw [List.splitOn_intercalate _ '/' (fun l hl => (h l hl).2.1) hn] at he
    exact Or.inr (h e he)

theorem intercalate_ValidPath (segs : List Str) (h : ∀ s ∈ segs, RealElem s) (hn : segs ≠ []) :
    ValidPath (['/'].intercalate segs) = true := by
  unfold ValidPath
  split
  · rfl
  · rw [List.splitOn_intercalate _ '/' (fun l hl => (h l hl).2.1) hn, List.all_eq_true]
    intro e he
    have := h e he
    simp [this.1, this.2.2.1, this.2.2.2]

/-! ## The static handler -/

theorem StaticHandler_miss (lib : Lib) (fsys : FS) (fileServer : Handler) (w : ResponseWriter)
    (r : Request) (hP : r.Path ≠ "/".toList) (hmiss : fsys.Open (candidate r.Path) = none) :
    StaticHandlerFunc lib fsys fileServer w r =
      if '.' ∈ candidate r.Path then NotFound w r
      else match fsys.ReadFile "index.html" with
        | none => NotFound w r
        | some data => writeIndex w data := by
  unfold StaticHandlerFunc
  simp only [if_neg hP, hmiss]
  by_cases hd : '.' ∈ candidate r.Path
  · rw [if_pos ((Contains_dot _).mpr hd), if_pos hd]
  · have : ¬ Contains (candidate r.Path) "." = true := fun h => hd ((Contains_dot _).mp h)
    rw [if_neg this, if_neg hd]

/-- C4: for every request path `P` the candidate the static handler looks up does not begin
with "/", has no segment equal to "..", and is empty or a valid path of the store (so it
names nothing outside the store root).  The path "/../../etc/passwd" yields the candidate
"etc/passwd"; where the store has no such entry ("etc/passwd" has no dot) the handler
answers with the SPA fallback: the index document, or 404 when that is absent. -/
theorem C4_candidate_stays_inside_root :
    (∀ P : Str, (candidate P).head? ≠ some '/' ∧
      ['.', '.'] ∉ (candidate P).splitOn '/' ∧
      (candidate P = [] ∨ ValidPath (candidate P) = true)) ∧
    candidate "/../../etc/passwd" = "etc/passwd".toList ∧
    (∀ (lib : Lib) (fsys : FS) (w : ResponseWriter) (m q : Str),
      fsys.Open "etc/passwd" = none →
      StaticHandler lib fsys w ⟨m, "/../../etc/passwd", q⟩ =
        match fsys.ReadFile "index.html" with
        | none => NotFound w ⟨m, "/../../etc/passwd", q⟩
        | some data => writeIndex w data) := by
  refine ⟨?_, by decide, ?_⟩
  · intro P
    obtain ⟨segs, hs, he, _⟩ := candidate_spec P
    rw [he]
    refine ⟨intercalate_head segs hs, ?_, ?_⟩
    · intro hm
      rcases intercalate_splitOn_real segs hs _ hm with h | h
      · exact absurd h (by decide)
      · exact h.2.2.2 rfl
    · by_cases hn : segs = []
      · left; subst hn; simp [List.intercalate]
      · right; exact intercalate_ValidPath segs hs hn
  · intro lib fsys w m q hmiss
    have hc : candidate "/../../etc/passwd" = "etc/passwd".toList := by decide
    have hne : ("/../../etc/passwd".toList : Str) ≠ "/".toList := by decide
    have := StaticHandler_miss lib fsys (FileServer lib fsys) w ⟨m, "/../../etc/passwd", q⟩
      hne (by rw [hc]; exact hmiss)
    rw [StaticHandler, this, hc, if_neg (by decide)]

/-- Witness of C4: the candidate of "/a/../../b/./c" is inside the root, and the traversal
path is answered by the SPA fallback on the sample store. -/
theorem C4_candidate_stays_inside_root_witness :
    (candidate "/a/../../b/./c").head? ≠ some '/' ∧
    (StaticHandler sampleLib sampleFS {} ⟨"GET", "/../../etc/passwd", []⟩).body
      = utf8 "<html></html>" := by
  refine ⟨(C4_candidate_stays_inside_root.1 _).1, ?_⟩
  rw [C4_candidate_stays_inside_root.2.2 sampleLib sampleFS {} "GET" [] (by decide)]
  decide

/-- C1: for every request path other than "/" whose candidate cannot be opened in the
store: if the candidate contains a '.', the static handler responds 404; otherwise it
responds 200 with the bytes of the index document as body, Content-Type
"text/html; charset=utf-8" and Cache-Control "no-cache, no-store, must-revalidate", and with
404 if the index document is absent from the store. -/
theorem C1_miss_dot_heuristic (lib : Lib) (fsys : FS) (w : ResponseWriter) (r : Request)
    (hw : w.status = none) (hb : w.body = []) (hP : r.Path ≠ "/".toList)
    (hmiss : fsys.Open (candidate r.Path) = none) :
    ('.' ∈ candidate r.Path → (StaticHandler lib fsys w r).status = some 404) ∧
    ('.' ∉ candidate r.Path → ∀ data, fsys.ReadFile "index.html" = some data →
      (StaticHandler lib fsys w r).status = some 200 ∧
      (StaticHandler lib fsys w r).body = data ∧
      (StaticHandler lib fsys w r).Get "Content-Type" = some "text/html; charset=utf-8".toList ∧
      (StaticHandler lib fsys w r).Get "Cache-Control"
        = some "no-cache, no-store, must-revalidate".toList) ∧
    ('.' ∉ candidate r.Path → fsys.ReadFile "index.html" = none →
      (StaticHandler lib fsys w r).status = some 404) := by
  have h := StaticHandler_miss lib fsys (FileServer lib fsys) w r hP hmiss
  rw [← StaticHandler] at h
  refine ⟨?_, ?_, ?_⟩
  · intro hd
    rw [h, if_pos hd]
    exact status_NotFound w r hw
  · intro hd data hi
    rw [h, if_neg hd, hi]
    exact writeIndex_spec w data hw hb
  · intro hd hi
    rw [h, if_neg hd, hi]
    exact status_NotFound w r hw

/-- Witness of C1 on the sample store: "/missing.js" and "/user/john.doe" give 404,
"/dashboard/settings" gives the index document. -/
theorem C1_miss_dot_heuristic_witness :
    (StaticHandler sampleLib sampleFS {} ⟨"GET", "/missing.js", []⟩).status = some 404 ∧
    (StaticHandler sampleLib sampleFS {} ⟨"GET", "/user/john.doe", []⟩).status = some 404 ∧
    (StaticHandler sampleLib sampleFS {} ⟨"GET", "/dashboard/settings", []⟩).status = some 200 ∧
    (StaticHandler sampleLib sampleFS {} ⟨"GET", "/dashboard/settings", []⟩).body
      = utf8 "<html></html>" :=
  ⟨(C1_miss_dot_heuristic sampleLib sampleFS {} ⟨"GET", "/missing.js", []⟩ rfl rfl
      (by decide) (by decide)).1 (by decide),
   (C1_miss_dot_heuristic sampleLib sampleFS {} ⟨"GET", "/user/john.doe", []⟩ rfl rfl
      (by decide) (by decide)).1 (by decide),
   ((C1_miss_dot_heuristic sampleLib sampleFS {} ⟨"GET", "/dashboard/settings", []⟩ rfl rfl
      (by decide) (by decide)).2.1 (by decide) (utf8 "<html></html>") (by decide)).1,
   ((C1_miss_dot_heuristic sampleLib sampleFS {} ⟨"GET", "/dashboard/settings", []⟩ rfl rfl
      (by decide) (by decide)).2.1 (by decide) (utf8 "<html></html>") (by decide)).2.1⟩

/-- C5: for the request path exactly "/" and every store that contains the index document,
the static handler responds 200 with the bytes of the index document, Content-Type
"text/html; charset=utf-8" and Cache-Control "no-cache, no-store, must-revalidate", whatever
the other entries of the store are; if the store lacks the index document it responds 404. -/
theorem C5_root_serves_index (lib : Lib) (fsys : FS) (w : ResponseWriter) (m q : Str)
    (hw : w.status = none) (hb : w.body = []) :
    (∀ data, fsys.ReadFile "index.html" = some data →
      (StaticHandler lib fsys w ⟨m, "/", q⟩).status = some 200 ∧
      (StaticHandler lib fsys w ⟨m, "/", q⟩).body = data ∧
      (StaticHandler lib fsys w ⟨m, "/", q⟩).Get "Content-Type"
        = some "text/html; charset=utf-8".toList ∧
      (StaticHandler lib fsys w ⟨m, "/", q⟩).Get "Cache-Control"
        = some "no-cache, no-store, must-revalidate".toList) ∧
    (fsys.ReadFile "index.html" = none →
      (StaticHandler lib fsys w ⟨m, "/", q⟩).status = some 404) ∧
    (∀ (lib2 : Lib) (fsys2 : FS), fsys2 "index.html" = fsys "index.html" →
      StaticHandler lib2 fsys2 w ⟨m, "/", q⟩ = StaticHandler lib fsys w ⟨m, "/", q⟩) := by
  have h : ∀ (l : Lib) (f : FS), StaticHandler l f w ⟨m, "/", q⟩ =
      match f.ReadFile "index.html" with
      | none => Error w "index.html not found" 404
      | some data => writeIndex w data := by
    intro l f
    simp [StaticHandler, StaticHandlerFunc]
  refine ⟨?_, ?_, ?_⟩
  · intro data hi
    rw [h, hi]
    exact writeIndex_spec w data hw hb
  · intro hi
    rw [h, hi]
    exact status_Error w _ 404 hw
  · intro lib2 fsys2 he
    rw [h, h]
    have : fsys2.ReadFile "index.html" = fsys.ReadFile "index.html" := by
      simp only [FS.ReadFile, FS.Open, he]
    rw [this]

/-- Witness of C5 on the sample store. -/
theorem C5_root_serves_index_witness :
    (StaticHandler sampleLib sampleFS {} ⟨"GET", "/", []⟩).status = some 200 ∧
    (StaticHandler sampleLib sampleFS {} ⟨"GET", "/", []⟩).body = utf8 "<html></html>" :=
  ⟨((C5_root_serves_index sampleLib sampleFS {} "GET" [] rfl rfl).1 (utf8 "<html></html>") (by decide)).1,
   ((C5_root_serves_index sampleLib sampleFS {} "GET" [] rfl rfl).1 (utf8 "<html></html>") (by decide)).2.1⟩

theorem HasSuffix_slash (x : Str) : HasSuffix x "/" = true ↔ x.getLast? = some '/' := by
  show List.isSuffixOf ['/'] x = true ↔ x.getLast? = some '/'
  rw [List.isSuffixOf, List.getLast?_eq_head?_reverse]
  cases x.reverse with
  | nil => simp [List.isPrefixOf]
  | cons c t =>
    simp only [List.isPrefixOf, List.head?, Bool.and_true, beq_iff_eq, Option.some.injEq]
    exact eq_comm

theorem Open_some_ne_nil (fsys : FS) (name : Str) (e : Entry) (h : fsys.Open name = some e) :
    name ≠ [] := by
  intro hn
  subst hn
  have hv : ValidPath [] = false := by decide
  simp [FS.Open, hv] at h

theorem forwarded_path (P : Str) (hc : candidate P ≠ []) :
    '/' :: candidate P ≠ "/".toList ∧ HasSuffix ('/' :: candidate P) "/" = false := by
  refine ⟨fun h => hc (by simpa using h), ?_⟩
  obtain ⟨segs, hs, he, _⟩ := candidate_spec P
  have hl := intercalate_getLast segs hs
  rw [← he] at hl
  have : ¬ HasSuffix ('/' :: candidate P) "/" = true := by
    rw [HasSuffix_slash]
    cases hcp : candidate P with
    | nil => exact absurd hcp hc
    | cons a l =>
      rw [List.getLast?_cons_cons, ← hcp]
      exact hl
  simpa using this

theorem StaticHandler_forward (lib : Lib) (fsys : FS) (fileServer : Handler)
    (w : ResponseWriter) (r : Request) (hP : r.Path ≠ "/".toList) (e : Entry)
    (he : fsys.Open (candidate r.Path) = some e)
    (hd : e.IsDir = true → HasSuffix r.Path "/" = true) :
    StaticHandlerFunc lib fsys fileServer w r =
      fileServer
        (w.Set "Cache-Control" (if candidate r.Path = "index.html".toList
          then "no-cache, no-store, must-revalidate".toList
          else "public, max-age=31536000, immutable".toList))
        { r with Path := '/' :: candidate r.Path } := by
  unfold StaticHandlerFunc
  simp only [if_neg hP, he]
  have : ¬ (e.IsDir = true ∧ ¬ HasSuffix r.Path "/".toList = true) := fun h => h.2 (hd h.1)
  rw [if_neg this]
  split <;> rfl

/-- C10 (the claim fails): in a store where "index.html" is a directory, the request path
"/index.html/" is not "/", ends in "/" and has a directory as candidate, and the handler
forwards it with Cache-Control "no-cache, no-store, must-revalidate", not with
"public, max-age=31536000, immutable" (the file server here records the forwarded path). -/
theorem C10_counterexample :
    ("/index.html/".toList : Str) ≠ "/".toList ∧
    HasSuffix "/index.html/" "/" = true ∧
    indexDirFS.Open (candidate "/index.html/") = some .dir ∧
    StaticHandlerFunc sampleLib indexDirFS (fun w r => w.Set "X-Forwarded-Path" r.Path) {}
        ⟨"GET", "/index.html/", []⟩
      = (({} : ResponseWriter).Set "Cache-Control" "no-cache, no-store, must-revalidate").Set
          "X-Forwarded-Path" "/index.html" ∧
    (StaticHandlerFunc sampleLib indexDirFS (fun w r => w.Set "X-Forwarded-Path" r.Path) {}
        ⟨"GET", "/index.html/", []⟩).Get "Cache-Control"
      ≠ some "public, max-age=31536000, immutable".toList := by
  decide

/-- C10 (amended): for every request path other than "/" that ends in "/" and whose
candidate is a directory, the static handler issues no redirect of its own: its response is
the file server's, to the request with the path "/" followed by the candidate and with
Cache-Control "public, max-age=31536000, immutable" set, or
"no-cache, no-store, must-revalidate" when the candidate is "index.html".  For every request
that reaches the file server the forwarded path is "/" followed by the candidate, is not
the root and has no trailing "/"; the remaining requests (the root, a miss, a directory
without trailing "/") do not reach the file server. -/
theorem C10_forward_to_file_server (lib : Lib) (fsys : FS) (fileServer : Handler)
    (w : ResponseWriter) (r : Request) :
    (r.Path ≠ "/".toList → HasSuffix r.Path "/" = true →
      fsys.Open (candidate r.Path) = some .dir →
      (candidate r.Path ≠ "index.html".toList →
        StaticHandlerFunc lib fsys fileServer w r =
          fileServer (w.Set "Cache-Control" "public, max-age=31536000, immutable")
            { r with Path := '/' :: candidate r.Path }) ∧
      (candidate r.Path = "index.html".toList →
        StaticHandlerFunc lib fsys fileServer w r =
          fileServer (w.Set "Cache-Control" "no-cache, no-store, must-revalidate")
            { r with Path := '/' :: candidate r.Path })) ∧
    (r.Path ≠ "/".toList → ∀ e, fsys.Open (candidate r.Path) = some e →
      (e.IsDir = true → HasSuffix r.Path "/" = true) →
      StaticHandlerFunc lib fsys fileServer w r =
        fileServer
          (w.Set "Cache-Control" (if candidate r.Path = "index.html".toList
            then "no-cache, no-store, must-revalidate".toList
            else "public, max-age=31536000, immutable".toList))
          { r with Path := '/' :: candidate r.Path } ∧
      '/' :: candidate r.Path ≠ "/".toList ∧
      HasSuffix ('/' :: candidate r.Path) "/" = false) ∧
    ((r.Path = "/".toList ∨ fsys.Open (candidate r.Path) = none ∨
        (fsys.Open (candidate r.Path) = some .dir ∧ HasSuffix r.Path "/" = false)) →
      ∀ fileServer2 : Handler,
        StaticHandlerFunc lib fsys fileServer2 w r = StaticHandlerFunc lib fsys fileServer w r) := by
  have hfwd := fun hP e he hd => StaticHandler_forward lib fsys fileServer w r hP e he hd
  refine ⟨?_, ?_, ?_⟩
  · intro hP hs hd
    refine ⟨?_, ?_⟩
    · intro hne
      rw [hfwd hP _ hd (fun _ => hs), if_neg hne]
    · intro heq
      rw [hfwd hP _ hd (fun _ => hs), if_pos heq]
  · intro hP e he hd
    exact ⟨hfwd hP e he hd, forwarded_path r.Path (Open_some_ne_nil fsys _ e he)⟩
  · intro h fileServer2
    unfold StaticHandlerFunc
    rcases h with h | h | h
    · simp only [if_pos h]
    · by_cases hP : r.Path = "/".toList
      · simp only [if_pos hP]
      · simp only [if_neg hP, h]
    · by_cases hP : r.Path = "/".toList
      · simp only [if_pos hP]
      · simp only [if_neg hP, h.1]
        have : Entry.dir.IsDir = true ∧ ¬ HasSuffix r.Path "/".toList = true :=
          ⟨rfl, by rw [h.2]; decide⟩
        rw [if_pos this, if_pos this]

/-- Witness of C10 (amended) on the sample store: "/assets/" is forwarded as "/assets" with
the immutable header to whatever file server the handler closes over (here one that records
the forwarded path). -/
theorem C10_forward_to_file_server_witness :
    StaticHandlerFunc sampleLib sampleFS (fun w r => w.Set "X-Forwarded-Path" r.Path) {}
        ⟨"GET", "/assets/", []⟩
      = (({} : ResponseWriter).Set "Cache-Control" "public, max-age=31536000, immutable").Set
          "X-Forwarded-Path" "/assets" :=
  ((C10_forward_to_file_server sampleLib sampleFS (fun w r => w.Set "X-Forwarded-Path" r.Path) {}
    ⟨"GET", "/assets/", []⟩).1 (by decide) (by decide) (by decide)).1 (by decide)

/-! ## routes.go -/

/-- C6: for every request whose method is OPTIONS, to any path, the CORS middleware responds
with status 204, an empty body and the four fixed headers, and the wrapped handler is not
invoked: the response is the same whatever handler is wrapped. -/
theorem C6_options_preflight (next : Handler) (w : ResponseWriter) (r : Request)
    (hw : w.status = none) (hb : w.body = []) (hm : r.Method = "OPTIONS".toList) :
    (corsMiddleware next w r).status = some 204 ∧
    (corsMiddleware next w r).body = [] ∧
    (corsMiddleware next w r).Get "Access-Control-Allow-Origin" = some "*".toList ∧
    (corsMiddleware next w r).Get "Access-Control-Allow-Methods"
      = some "GET, POST, PUT, DELETE, OPTIONS, PATCH".toList ∧
    (corsMiddleware next w r).Get "Access-Control-Allow-Headers"
      = some "Accept, Authorization, Content-Type, X-CSRF-Token".toList ∧
    (corsMiddleware next w r).Get "Access-Control-Allow-Credentials" = some "false".toList ∧
    (∀ next2 : Handler, corsMiddleware next2 w r = corsMiddleware next w r) := by
  have h : ∀ n : Handler, corsMiddleware n w r =
      ((((w.Set "Access-Control-Allow-Origin" "*").Set "Access-Control-Allow-Methods"
        "GET, POST, PUT, DELETE, OPTIONS, PATCH").Set "Access-Control-Allow-Headers"
        "Accept, Authorization, Content-Type, X-CSRF-Token").Set
        "Access-Control-Allow-Credentials" "false").WriteHeader 204 := by
    intro n
    simp only [corsMiddleware, if_pos hm]
  refine ⟨?_, ?_, ?_, ?_, ?_, ?_, ?_⟩
  · rw [h]; exact status_WriteHeader _ _ (by simpa using hw)
  · rw [h]; simpa using hb
  · rw [h, Get_WriteHeader, Get_Set_ne _ _ _ _ (by decide), Get_Set_ne _ _ _ _ (by decide),
      Get_Set_ne _ _ _ _ (by decide)]
    exact Get_Set_self _ _ _
  · rw [h, Get_WriteHeader, Get_Set_ne _ _ _ _ (by decide), Get_Set_ne _ _ _ _ (by decide)]
    exact Get_Set_self _ _ _
  · rw [h, Get_WriteHeader, Get_Set_ne _ _ _ _ (by decide)]
    exact Get_Set_self _ _ _
  · rw [h, Get_WriteHeader]
    exact Get_Set_self _ _ _
  · intro next2
    rw [h, h]

/-- Witness of C6: an OPTIONS request to "/api/" in front of the API router. -/
theorem C6_options_preflight_witness :
    (corsMiddleware apiHandler {} ⟨"OPTIONS", "/api/", []⟩).status = some 204 ∧
    (corsMiddleware apiHandler {} ⟨"OPTIONS", "/api/", []⟩).body = [] :=
  ⟨(C6_options_preflight apiHandler {} ⟨"OPTIONS", "/api/", []⟩ rfl rfl rfl).1,
   (C6_options_preflight apiHandler {} ⟨"OPTIONS", "/api/", []⟩ rfl rfl rfl).2.1⟩

/-- C7: the API router dispatches by exact sub-path match.  For every request path beginning
with "/api/": if the path is exactly "/api/" the response is status 200 with Content-Type
"application/json" and the JSON object with the single field "message" of value
"sampha API is running" as body; for every other such path the response is the 404 of
`http.NotFound` and the hello handler is not invoked (whatever that handler is). -/
theorem C7_api_exact_match (w : ResponseWriter) (r : Request) (rest : Str)
    (hw : w.status = none) (hb : w.body = []) (hp : r.Path = "/api/".toList ++ rest) :
    (rest = [] →
      (apiHandler w r).status = some 200 ∧
      (apiHandler w r).Get "Content-Type" = some "application/json".toList ∧
      (apiHandler w r).body = utf8 "\x7b\"message\":\"sampha API is running\"\x7d") ∧
    (rest ≠ [] →
      (apiHandler w r).status = some 404 ∧
      ∀ hello : Handler, apiRoute hello w r = NotFound w r) := by
  have ht : TrimPrefix r.Path "/api" = '/' :: rest := by
    rw [hp]
    show TrimPrefix ('/' :: 'a' :: 'p' :: 'i' :: '/' :: rest) ['/', 'a', 'p', 'i'] = '/' :: rest
    simp [TrimPrefix, HasPrefix, List.isPrefixOf]
  have hm : Marshal [("message".toList, "sampha API is running".toList)]
      = some (utf8 "\x7b\"message\":\"sampha API is running\"\x7d") := by decide
  refine ⟨?_, ?_⟩
  · intro he
    subst he
    have h : apiHandler w r = (w.Set "Content-Type" "application/json").Write
        (utf8 "\x7b\"message\":\"sampha API is running\"\x7d") := by
      simp only [apiHandler, apiRoute, ht, HelloWorldHandler, hm]
      rfl
    rw [h]
    refine ⟨status_Write _ _ (by simpa using hw), ?_, by simp [hb]⟩
    rw [Get_Write]
    exact Get_Set_self _ _ _
  · intro hne
    have h : ∀ hello : Handler, apiRoute hello w r = NotFound w r := by
      intro hello
      have : ¬ ('/' :: rest = "/".toList) := by
        intro e
        exact hne (by simpa using e)
      simp only [apiRoute, ht, if_neg this]
    exact ⟨by rw [apiHandler, h]; exact status_NotFound w r hw, h⟩

/-- Witness of C7: "/api/" is answered by the hello handler, "/api/unknown" and
"/api/health" by 404. -/
theorem C7_api_exact_match_witness :
    (apiHandler {} ⟨"GET", "/api/", []⟩).status = some 200 ∧
    (apiHandler {} ⟨"GET", "/api/unknown", []⟩).status = some 404 ∧
    (apiHandler {} ⟨"GET", "/api/health", []⟩).status = some 404 :=
  ⟨((C7_api_exact_match {} ⟨"GET", "/api/", []⟩ [] rfl rfl rfl).1 rfl).1,
   ((C7_api_exact_match {} ⟨"GET", "/api/unknown", []⟩ "unknown" rfl rfl rfl).2 (by decide)).1,
   ((C7_api_exact_match {} ⟨"GET", "/api/health", []⟩ "health" rfl rfl rfl).2 (by decide)).1⟩

/-! ## path.Clean on paths in clean form -/

theorem takeWhile_append_stop (s rest : Str) (hs : '/' ∉ s)
    (hr : rest = [] ∨ rest.head? = some '/') :
    (s ++ rest).takeWhile (· ≠ '/') = s ∧ (s ++ rest).dropWhile (· ≠ '/') = rest := by
  induction s with
  | nil =>
    rcases hr with hr | hr
    · subst hr; simp
    · cases rest with
      | nil => simp
      | cons a l =>
        have ha : a = '/' := by simpa using hr
        subst ha
        simp [List.takeWhile, List.dropWhile]
  | cons c s ih =>
    have hc : c ≠ '/' := fun e => hs (e ▸ List.mem_cons_self _ _)
    have ht : '/' ∉ s := fun m => hs (List.mem_cons_of_mem _ m)
    have := ih ht
    have h1 : (decide (c ≠ '/')) = true := by simpa using hc
    simp only [List.cons_append, List.takeWhile, List.dropWhile, h1]
    exact ⟨congrArg (c :: ·) this.1, this.2⟩

theorem cleanLoop_elem (fuel : Nat) (s rest : Str) (stack : List Str) (hs : RealElem s)
    (hr : rest = [] ∨ rest.head? = some '/') (hst : ∀ x ∈ stack, RealElem x) :
    cleanLoop true (fuel + 1) (s ++ rest) (rootedBuf stack) 1
      = cleanLoop true fuel rest (rootedBuf (s :: stack)) 1 := by
  obtain ⟨hne, hsl, hd1, hd2⟩ := hs
  cases s with
  | nil => exact absurd rfl hne
  | cons c t =>
    have hc : c ≠ '/' := fun e => hsl (e ▸ List.mem_cons_self _ _)
    have ht : '/' ∉ t := fun m => hsl (List.mem_cons_of_mem _ m)
    have hhead : ∀ a l, t = a :: l → a ≠ '/' := fun a l e h => ht (by rw [e, h]; simp)
    have h2 : ¬ (c = '.' ∧ (t ++ rest = [] ∨ (t ++ rest).head? = some '/')) := by
      rintro ⟨e, h⟩
      cases t with
      | nil => exact hd1 (by rw [e])
      | cons a l =>
        rcases h with h | h
        · simp at h
        · exact hhead a l rfl (by simpa using h)
    have h3 : ¬ (c = '.' ∧ (t ++ rest).head? = some '.' ∧
        ((t ++ rest).drop 1 = [] ∨ ((t ++ rest).drop 1).head? = some '/')) := by
      rintro ⟨e, h, h'⟩
      cases t with
      | nil =>
        rcases hr with hr | hr
        · subst hr; simp at h
        · simp only [List.nil_append] at h
          rw [hr] at h
          exact absurd h (by decide)
      | cons a l =>
        have ea : a = '.' := by simpa using h
        cases l with
        | nil => exact hd2 (by rw [e, ea])
        | cons b l2 =>
          rcases h' with h' | h'
          · simp at h'
          · have hb : b = '/' := by simpa using h'
            exact ht (by rw [hb]; simp)
    have hsplit := takeWhile_append_stop t rest ht hr
    rw [List.cons_append]
    simp only [cleanLoop]
    rw [if_neg hc, if_neg h2, if_neg h3, hsplit.1, hsplit.2]
    congr 1
    by_cases he : stack = []
    · subst he
      simp [rootedBuf]
    · have hl : (rootedBuf stack).length ≠ 1 := fun h => he ((rootedBuf_length_one stack hst).mp h)
      simp [rootedBuf, he, hl]

theorem cleanLoop_pathOf (segs : List Str) : ∀ (stack : List Str) (tail : Str) (fuel : Nat),
    (∀ s ∈ segs, RealElem s) → (∀ s ∈ stack, RealElem s) → (tail = [] ∨ tail = ['/']) →
    (pathOf segs ++ tail).length ≤ fuel →
    cleanLoop true fuel (pathOf segs ++ tail) (rootedBuf stack) 1
      = rootedBuf (segs.reverse ++ stack) := by
  induction segs with
  | nil =>
    intro stack tail fuel _ _ ht hf
    rcases ht with ht | ht
    · subst ht
      cases fuel <;> simp [pathOf, cleanLoop]
    · subst ht
      cases fuel with
      | zero => simp [pathOf] at hf
      | succ n => cases n <;> simp [pathOf, cleanLoop]
  | cons s ss ih =>
    intro stack tail fuel hs hst ht hf
    have hp : pathOf (s :: ss) ++ tail = '/' :: (s ++ (pathOf ss ++ tail)) := by
      simp [pathOf]
    rw [hp] at hf ⊢
    have hsr := hs s (List.mem_cons_self _ _)
    have hss : ∀ x ∈ ss, RealElem x := fun x hx => hs x (List.mem_cons_of_mem _ hx)
    have hslen : 0 < s.length := List.length_pos.mpr hsr.1
    have hr : (pathOf ss ++ tail) = [] ∨ (pathOf ss ++ tail).head? = some '/' := by
      cases ss with
      | nil =>
        rcases ht with ht | ht
        · left; subst ht; simp [pathOf]
        · right; subst ht; simp [pathOf]
      | cons a l => right; simp [pathOf]
    obtain ⟨n, rfl⟩ : ∃ n, fuel = n + 1 := ⟨fuel - 1, by simp at hf; omega⟩
    obtain ⟨m, rfl⟩ : ∃ m, n = m + 1 := ⟨n - 1, by simp at hf; omega⟩
    have step1 : cleanLoop true (m + 1 + 1) ('/' :: (s ++ (pathOf ss ++ tail))) (rootedBuf stack) 1
        = cleanLoop true (m + 1) (s ++ (pathOf ss ++ tail)) (rootedBuf stack) 1 := by
      simp [cleanLoop]
    rw [step1, cleanLoop_elem m s _ stack hsr hr hst]
    rw [ih (s :: stack) tail m hss (fun x hx => by
      rcases List.mem_cons.mp hx with e | e
      · exact e ▸ hsr
      · exact hst x e) ht (by simp at hf ⊢; omega)]
    simp

theorem rootedBuf_reverse (segs : List Str) (hn : segs ≠ []) :
    rootedBuf segs.reverse = pathOf segs := by
  rw [rootedBuf_eq, List.reverse_reverse]
  cases segs with
  | nil => exact absurd rfl hn
  | cons a l =>
    clear hn
    induction l generalizing a with
    | nil => simp [pathOf, List.intercalate]
    | cons b l ih =>
      have := ih b
      simp only [List.intercalate, List.intersperse, List.flatten_cons, pathOf,
        List.flatMap_cons, List.cons_append, List.singleton_append] at this ⊢
      rw [← this]
      simp

theorem Clean_pathOf (segs : List Str) (tail : Str) (hn : segs ≠ [])
    (hs : ∀ s ∈ segs, RealElem s) (ht : tail = [] ∨ tail = ['/']) :
    Clean (pathOf segs ++ tail) = pathOf segs := by
  cases segs with
  | nil => exact absurd rfl hn
  | cons s ss =>
    have hp : pathOf (s :: ss) ++ tail = '/' :: (s ++ (pathOf ss ++ tail)) := by
      simp [pathOf]
    have hsr := hs s (List.mem_cons_self _ _)
    have hss : ∀ x ∈ ss, RealElem x := fun x hx => hs x (List.mem_cons_of_mem _ hx)
    have hr : (pathOf ss ++ tail) = [] ∨ (pathOf ss ++ tail).head? = some '/' := by
      cases ss with
      | nil =>
        rcases ht with ht | ht
        · left; subst ht; simp [pathOf]
        · right; subst ht; simp [pathOf]
      | cons a l => right; simp [pathOf]
    have hb : rootedBuf [] = ['/'] := rfl
    have hloop : cleanLoop true (s ++ (pathOf ss ++ tail)).length.succ (s ++ (pathOf ss ++ tail))
        ['/'] 1 = rootedBuf (s :: ss).reverse := by
      rw [← hb, cleanLoop_elem _ s _ [] hsr hr (by simp),
        cleanLoop_pathOf ss [s] tail _ hss (by simpa using hsr) ht (by simp)]
      simp
    rw [hp]
    simp only [Clean, decide_True, if_true, List.length_cons]
    rw [hloop, rootedBuf_reverse _ hn]
    have : (pathOf (s :: ss)).length ≠ 0 := by simp [pathOf]
    rw [if_neg this]

/-! ## The static handler in front of the file server -/

theorem Clean_forwarded (P : Str) (hc : candidate P ≠ []) :
    Clean ('/' :: candidate P) = '/' :: candidate P := by
  obtain ⟨stack, hs, he⟩ := Clean_rooted (TrimPrefix P "/")
  have hcand : '/' :: candidate P = rootedBuf stack := by
    simp only [candidate]
    rw [he, rootedBuf_eq, TrimPrefix_slash]
  have hne : stack.reverse ≠ [] := by
    intro e
    have e2 : stack = [] := by simpa using e
    rw [e2] at hcand
    exact hc (by simpa [rootedBuf] using hcand)
  have hr : rootedBuf stack = pathOf stack.reverse := by
    have := rootedBuf_reverse stack.reverse hne
    rwa [List.reverse_reverse] at this
  rw [hcand, hr]
  have := Clean_pathOf stack.reverse [] hne (fun s h => hs s (List.mem_reverse.mp h)) (Or.inl rfl)
  simpa using this

theorem StaticHandler_file (lib : Lib) (fsys : FS) (w : ResponseWriter) (r : Request)
    (data : Bytes) (hP : r.Path ≠ "/".toList)
    (hf : fsys.Open (candidate r.Path) = some (.file data)) :
    StaticHandler lib fsys w r =
      serveFile lib fsys
        (w.Set "Cache-Control" (if candidate r.Path = "index.html".toList
            then "no-cache, no-store, must-revalidate".toList
            else "public, max-age=31536000, immutable".toList))
        { r with Path := '/' :: candidate r.Path } ('/' :: candidate r.Path) := by
  have hc := Open_some_ne_nil fsys _ _ hf
  have h := (StaticHandler_forward lib fsys (FileServer lib fsys) w r hP _ hf
    (fun h => absurd h (by simp [Entry.IsDir])))
  rw [StaticHandler, h]
  simp only [FileServer]
  have hpre : HasPrefix ('/' :: candidate r.Path) "/".toList = true := by
    show List.isPrefixOf ['/'] ('/' :: candidate r.Path) = true
    simp [List.isPrefixOf]
  rw [if_pos hpre, Clean_forwarded _ hc]

theorem Get_serveContent_CacheControl (lib : Lib) (w : ResponseWriter) (r : Request)
    (name : Str) (data : Bytes) :
    (serveContent lib w r name data).Get "Cache-Control" = w.Get "Cache-Control" := by
  unfold serveContent
  simp only
  split_ifs <;>
    simp only [Get_Write, Get_WriteHeader] <;>
    repeat (first | rw [Get_Set_ne _ _ _ _ (by decide)] | rfl)

theorem serveContent_spec (lib : Lib) (w : ResponseWriter) (r : Request) (name : Str)
    (data : Bytes) (hw : w.status = none) (hb : w.body = []) (hm : r.Method ≠ "HEAD".toList) :
    (serveContent lib w r name data).status = some 200 ∧
    (serveContent lib w r name data).body = data := by
  unfold serveContent
  simp only [if_pos hm]
  constructor
  · apply status_Write_some
    apply status_WriteHeader
    split_ifs <;> simpa using hw
  · split_ifs <;> simp [hb]

/-- What holds of a stored regular file: unless the forwarded path ends in "/index.html",
a request other than HEAD is answered 200 with exactly the stored bytes and Cache-Control
"public, max-age=31536000, immutable". -/
theorem StaticHandler_serves_file (lib : Lib) (fsys : FS) (w : ResponseWriter) (r : Request)
    (data : Bytes) (hw : w.status = none) (hb : w.body = []) (hm : r.Method ≠ "HEAD".toList)
    (hP : r.Path ≠ "/".toList) (hf : fsys.Open (candidate r.Path) = some (.file data))
    (hi : HasSuffix ('/' :: candidate r.Path) "/index.html" = false) :
    (StaticHandler lib fsys w r).status = some 200 ∧
    (StaticHandler lib fsys w r).body = data ∧
    (StaticHandler lib fsys w r).Get "Cache-Control"
      = some "public, max-age=31536000, immutable".toList := by
  have hc := Open_some_ne_nil fsys _ _ hf
  have hne : candidate r.Path ≠ "index.html".toList := by
    intro e
    rw [e] at hi
    exact absurd hi (by decide)
  have hfw := forwarded_path r.Path hc
  have hlast : ¬ (('/' :: candidate r.Path).getLast? = some '/') := by
    rw [← HasSuffix_slash, hfw.2]; decide
  have hopen : ioFSOpen fsys ('/' :: candidate r.Path) = some (.file data) := by
    have : ¬ ('/' :: candidate r.Path = ['/']) := fun e => hc (by simpa using e)
    simp only [ioFSOpen, if_neg this, TrimPrefix_slash, hf]
  rw [StaticHandler_file lib fsys w r data hP hf, if_neg hne]
  unfold serveFile
  simp only [hi, Bool.false_eq_true, if_false, hopen, if_neg hlast]
  have hm2 : ({ r with Path := '/' :: candidate r.Path } : Request).Method ≠ "HEAD".toList := hm
  refine ⟨(serveContent_spec lib _ _ _ data (by simpa using hw) (by simpa using hb) hm2).1,
    (serveContent_spec lib _ _ _ data (by simpa using hw) (by simpa using hb) hm2).2, ?_⟩
  rw [Get_serveContent_CacheControl]
  exact Get_Set_self _ _ _

/-- C2 (the failing input): a stored regular file whose forwarded path ends in "/index.html",
the index document "index.html" first of all, is not served: the file server answers 301
with the relative Location "./" and no body. -/
theorem C2_index_html_is_redirected (lib : Lib) (fsys : FS) (w : ResponseWriter) (r : Request)
    (data : Bytes) (hw : w.status = none) (hq : r.RawQuery = [])
    (hP : r.Path ≠ "/".toList) (hf : fsys.Open (candidate r.Path) = some (.file data))
    (hi : HasSuffix ('/' :: candidate r.Path) "/index.html" = true) :
    (StaticHandler lib fsys w r).status = some 301 ∧
    (StaticHandler lib fsys w r).Get "Location" = some "./".toList ∧
    (StaticHandler lib fsys w r).body = w.body := by
  rw [StaticHandler_file lib fsys w r data hP hf]
  unfold serveFile
  simp only [hi, if_true, localRedirect, hq, ne_eq, not_true_eq_false, if_false]
  refine ⟨status_WriteHeader _ _ (by simpa using hw), ?_, by simp⟩
  rw [Get_WriteHeader]
  exact Get_Set_self _ _ _

/-- Witness of C2: "GET /index.html" on the sample store, whose index document is a regular
file, is answered 301 with Location "./" and an empty body. -/
theorem C2_index_html_is_redirected_witness :
    sampleFS.Open (candidate "/index.html") = some (.file (utf8 "<html></html>")) ∧
    (StaticHandler sampleLib sampleFS {} ⟨"GET", "/index.html", []⟩).status = some 301 ∧
    (StaticHandler sampleLib sampleFS {} ⟨"GET", "/index.html", []⟩).Get "Location"
      = some "./".toList ∧
    (StaticHandler sampleLib sampleFS {} ⟨"GET", "/index.html", []⟩).body = [] :=
  ⟨by decide,
   C2_index_html_is_redirected sampleLib sampleFS {} ⟨"GET", "/index.html", []⟩
     (utf8 "<html></html>") rfl rfl (by decide) (by decide) (by decide)⟩

/-- What the file server makes of a directory requested with its trailing slash: the
forwarded path has lost the slash, so the file server answers 301 with the relative Location
of the last element and a slash. -/
theorem StaticHandler_directory_with_slash (lib : Lib) (fsys : FS) (w : ResponseWriter)
    (r : Request) (hw : w.status = none) (hq : r.RawQuery = []) (hP : r.Path ≠ "/".toList)
    (hs : HasSuffix r.Path "/" = true) (hd : fsys.Open (candidate r.Path) = some .dir)
    (hi : HasSuffix ('/' :: candidate r.Path) "/index.html" = false) :
    (StaticHandler lib fsys w r).status = some 301 ∧
    (StaticHandler lib fsys w r).Get "Location"
      = some (Base ('/' :: candidate r.Path) ++ ['/']) := by
  have hc := Open_some_ne_nil fsys _ _ hd
  have hfw := forwarded_path r.Path hc
  have hlast : ('/' :: candidate r.Path).getLast? ≠ some '/' := by
    intro e
    rw [← HasSuffix_slash, hfw.2] at e
    exact absurd e (by decide)
  have hopen : ioFSOpen fsys ('/' :: candidate r.Path) = some .dir := by
    have : ¬ ('/' :: candidate r.Path = ['/']) := fun e => hc (by simpa using e)
    simp only [ioFSOpen, if_neg this, TrimPrefix_slash, hd]
  have hpre : HasPrefix ('/' :: candidate r.Path) "/".toList = true := by
    show List.isPrefixOf ['/'] ('/' :: candidate r.Path) = true
    simp [List.isPrefixOf]
  rw [StaticHandler, StaticHandler_forward lib fsys _ w r hP _ hd (fun _ => hs)]
  simp only [FileServer, if_pos hpre, Clean_forwarded _ hc, serveFile, hi, Bool.false_eq_true,
    if_false, hopen, if_pos hlast, localRedirect, hq, ne_eq, not_true_eq_false]
  refine ⟨status_WriteHeader _ _ (by simpa using hw), ?_⟩
  rw [Get_WriteHeader]
  exact Get_Set_self _ _ _

/-! ## The redirect of a directory without trailing slash -/

theorem Redirect_status (lib : Lib) (w : ResponseWriter) (r : Request) (url : Str) (code : Nat)
    (hw : w.status = none) : (Redirect lib w r url code).status = some code := by
  unfold Redirect
  simp only
  have h1 : ∀ w1 : ResponseWriter, w1.status = none →
      (w1.WriteHeader code).status = some code := fun w1 h => status_WriteHeader _ _ h
  split_ifs
  all_goals first
    | exact status_Write_some _ _ _ (h1 _ (by simpa using hw))
    | exact h1 _ (by simpa using hw)

theorem Redirect_Location (lib : Lib) (w : ResponseWriter) (r : Request) (url : Str)
    (code : Nat) :
    (Redirect lib w r url code).Get "Location"
      = some (hexEscapeNonASCII (redirectTarget lib r url)) := by
  unfold Redirect
  simp only
  split_ifs <;> simp only [Get_Write, Get_WriteHeader] <;>
    first
      | exact Get_Set_self _ _ _
      | (rw [Get_Set_ne _ _ _ _ (by decide)]; exact Get_Set_self _ _ _)

theorem utf8EncodeChar_ne_nil (c : Char) : String.utf8EncodeChar c ≠ [] := by
  unfold String.utf8EncodeChar
  simp only
  split_ifs <;> simp

theorem hexEscape_head (t : Str) (h : t.head? ≠ some '/') :
    (hexEscapeNonASCII t).head? ≠ some '/' := by
  cases t with
  | nil => simp [hexEscapeNonASCII]
  | cons c l =>
    have hc : c ≠ '/' := by simpa using h
    simp only [hexEscapeNonASCII, List.flatMap_cons]
    by_cases ha : c.toNat < 128
    · simp [ha, hc]
    · rw [if_neg ha]
      cases hb : String.utf8EncodeChar c with
      | nil => exact absurd hb (utf8EncodeChar_ne_nil c)
      | cons b bs => simp

theorem hexEscape_pathAbsolute (loc : Str) (h : pathAbsolute loc = true) :
    pathAbsolute (hexEscapeNonASCII loc) = true := by
  cases loc with
  | nil => simp [pathAbsolute] at h
  | cons c t =>
    by_cases hc : c = '/'
    · subst hc
      have ht : t.head? ≠ some '/' := by simpa [pathAbsolute] using h
      have := hexEscape_head t ht
      have e : hexEscapeNonASCII ('/' :: t) = '/' :: hexEscapeNonASCII t := by
        simp only [hexEscapeNonASCII, List.flatMap_cons]
        rfl
      rw [e]
      simpa [pathAbsolute] using this
    · unfold pathAbsolute at h
      split at h
      · rename_i e; injection e with e1 _; exact absurd e1 hc
      · exact absurd h (by decide)

theorem hexEscape_ascii (s : Str) (h : ∀ c ∈ s, c.toNat < 128) : hexEscapeNonASCII s = s := by
  induction s with
  | nil => rfl
  | cons c l ih =>
    have hc := h c (List.mem_cons_self _ _)
    have hl := ih (fun x hx => h x (List.mem_cons_of_mem _ hx))
    simp only [hexEscapeNonASCII, List.flatMap_cons, if_pos hc] at hl ⊢
    rw [hl]
    rfl

theorem drop_indexOf_head (l : Str) (a : Char) :
    l.drop (l.indexOf a) = [] ∨ (l.drop (l.indexOf a)).head? = some a := by
  induction l with
  | nil => left; rfl
  | cons c t ih =>
    by_cases hc : c = a
    · right; subst hc; simp
    · rw [List.indexOf_cons_ne _ hc]
      simpa using ih

theorem pathAbsolute_iff (loc : Str) :
    pathAbsolute loc = true ↔ ∃ t, loc = '/' :: t ∧ t.head? ≠ some '/' := by
  constructor
  · intro h
    unfold pathAbsolute at h
    split at h
    · rename_i t
      exact ⟨t, rfl, by simpa using h⟩
    · exact absurd h (by decide)
  · rintro ⟨t, rfl, ht⟩
    simpa [pathAbsolute] using ht

theorem redirectTarget_cases (lib : Lib) (r : Request) (t : Str) :
    redirectTarget lib r ('/' :: t) = '/' :: t ∨
    redirectTarget lib r ('/' :: t) = cleanedTarget ('/' :: t) := by
  unfold redirectTarget
  cases lib.urlParse ('/' :: t) with
  | none => left; rfl
  | some u =>
    by_cases hrel : u.Scheme = [] ∧ u.Host = []
    · right
      have hurl : ¬ (('/' :: t : Str) = [] ∨ ('/' :: t : Str).head? ≠ some '/') := by simp
      simp only [if_pos hrel, if_neg hurl, cleanedTarget]
    · left
      simp only [if_neg hrel]

theorem cleanedTarget_pathAbsolute (t : Str) : pathAbsolute (cleanedTarget ('/' :: t)) = true := by
  unfold cleanedTarget
  have hidx : List.indexOf '?' ('/' :: t) = List.indexOf '?' t + 1 :=
    List.indexOf_cons_ne _ (by decide)
  simp only [hidx, List.take_succ_cons, List.drop_succ_cons]
  obtain ⟨stack, hs, he⟩ := Clean_rooted (t.take (List.indexOf '?' t))
  rw [he, rootedBuf_eq]
  have hq := drop_indexOf_head t '?'
  have hqh : (t.drop (List.indexOf '?' t)).head? ≠ some '/' := by
    rcases hq with hq | hq
    · rw [hq]; simp
    · rw [hq]; decide
  have hic := intercalate_head stack.reverse (fun x hx => hs x (List.mem_reverse.mp hx))
  rw [pathAbsolute_iff]
  cases hi : ['/'].intercalate stack.reverse with
  | nil =>
    have hsuf : HasSuffix ['/'] ['/'] = true := by decide
    refine ⟨t.drop (List.indexOf '?' t), ?_, hqh⟩
    simp [hsuf]
  | cons a l =>
    rw [hi] at hic
    have ha : a ≠ '/' := by simpa using hic
    split_ifs
    · exact ⟨a :: l ++ ['/'] ++ t.drop (List.indexOf '?' t), by simp, by simpa using ha⟩
    · exact ⟨a :: l ++ t.drop (List.indexOf '?' t), by simp, by simpa using ha⟩

theorem redirectTarget_pathAbsolute (lib : Lib) (r : Request) (t : Str)
    (ht : t.head? ≠ some '/') :
    pathAbsolute (redirectTarget lib r ('/' :: t)) = true := by
  rcases redirectTarget_cases lib r t with h | h
  · rw [h]; simpa [pathAbsolute] using ht
  · rw [h]; exact cleanedTarget_pathAbsolute t

theorem pathOf_getLast (segs : List Str) (hn : segs ≠ []) (hs : ∀ s ∈ segs, RealElem s) :
    ¬ HasSuffix (pathOf segs) "/".toList = true := by
  rw [HasSuffix_slash]
  rcases List.eq_nil_or_concat segs with e | ⟨l, s, e⟩
  · exact absurd e hn
  · subst e
    have hsr := hs s (by simp)
    have hp : pathOf (l.concat s) = (pathOf l ++ ['/']) ++ s := by simp [pathOf]
    rw [hp, List.getLast?_append_of_ne_nil _ hsr.1]
    intro e
    exact hsr.2.1 (List.mem_of_getLast?_eq_some e)

theorem redirectTarget_cleanForm (lib : Lib) (r : Request) (P : Str) (hc : CleanForm P)
    (hq : '?' ∉ P) : redirectTarget lib r (P ++ ['/']) = P ++ ['/'] := by
  obtain ⟨segs, hn, hs, rfl⟩ := hc
  obtain ⟨a, l, rfl⟩ : ∃ a l, segs = a :: l := by
    cases segs with
    | nil => exact absurd rfl hn
    | cons a l => exact ⟨a, l, rfl⟩
  have hP : pathOf (a :: l) ++ ['/'] = '/' :: (a ++ pathOf l ++ ['/']) := by simp [pathOf]
  have hcases := redirectTarget_cases lib r (a ++ pathOf l ++ ['/'])
  rw [← hP] at hcases
  rcases hcases with h | h
  · exact h
  · rw [h]
    have hnot : '?' ∉ pathOf (a :: l) ++ ['/'] := by
      intro h
      rcases List.mem_append.mp h with h | h
      · exact hq h
      · simp at h
    unfold cleanedTarget
    simp only [List.indexOf_eq_length.mpr hnot, List.take_length, List.drop_length,
      Clean_pathOf (a :: l) ['/'] hn hs (Or.inr rfl)]
    have htr : HasSuffix (pathOf (a :: l) ++ ['/']) "/".toList = true := by
      rw [HasSuffix_slash]; simp
    have hnt := pathOf_getLast (a :: l) hn hs
    rw [if_pos ⟨htr, hnt⟩]
    simp

/-- In a store with a directory named "é" the Location is percent-encoded, and in one with
a directory named "..?x" the target is cleaned up to its '?': in neither case is the
Location the request path followed by "/". -/
theorem Location_escaped_or_split :
    (StaticHandler sampleLib (fun name => if name = "é" then some .dir else none) {}
      ⟨"GET", "/é", []⟩).Get "Location" = some "/%c3%a9/".toList ∧
    (StaticHandler sampleLib (fun name => if name = "..?x" then some .dir else none) {}
      ⟨"GET", "/..?x", []⟩).Get "Location" = some "/?x/".toList := by
  decide

/-- C3 (the claim fails): on the sample store, whose `assets` is a directory, the request
path "//assets" is answered 301 with the Location "//assets/", which begins with "//" and is
not path-absolute; and the request path "/x/../assets" is answered 301 with the Location
"/assets/", which is not the request path followed by "/". -/
theorem C3_counterexample :
    HasSuffix "//assets" "/" = false ∧
    sampleFS.Open (candidate "//assets") = some .dir ∧
    (StaticHandler sampleLib sampleFS {} ⟨"GET", "//assets", []⟩).status = some 301 ∧
    (StaticHandler sampleLib sampleFS {} ⟨"GET", "//assets", []⟩).Get "Location"
      = some "//assets/".toList ∧
    pathAbsolute "//assets/" = false ∧
    HasSuffix "/x/../assets" "/" = false ∧
    sampleFS.Open (candidate "/x/../assets") = some .dir ∧
    (StaticHandler sampleLib sampleFS {} ⟨"GET", "/x/../assets", []⟩).status = some 301 ∧
    (StaticHandler sampleLib sampleFS {} ⟨"GET", "/x/../assets", []⟩).Get "Location"
      = some "/assets/".toList := by
  decide

/-- C3 (amended): for every request path `P` that begins with exactly one "/", does not end
in "/" and whose candidate is a directory in the store, the static handler responds with
status 301 and a path-absolute Location (it begins with exactly one "/"), whatever
`url.Parse` makes of the target; when `P` is moreover in clean form, free of '?' and ASCII,
the Location is `P` followed by "/". -/
theorem C3_directory_redirect (lib : Lib) (fsys : FS) (w : ResponseWriter) (r : Request)
    (hw : w.status = none) (hs : HasSuffix r.Path "/" = false)
    (hd : fsys.Open (candidate r.Path) = some .dir) (h1 : pathAbsolute r.Path = true) :
    (StaticHandler lib fsys w r).status = some 301 ∧
    (∃ loc, (StaticHandler lib fsys w r).Get "Location" = some loc ∧ pathAbsolute loc = true) ∧
    (CleanForm r.Path → '?' ∉ r.Path → (∀ c ∈ r.Path, c.toNat < 128) →
      (StaticHandler lib fsys w r).Get "Location" = some (r.Path ++ ['/'])) := by
  have hP : r.Path ≠ "/".toList := by
    intro e
    rw [e] at hs
    exact absurd hs (by decide)
  have h : StaticHandler lib fsys w r = Redirect lib w r (r.Path ++ ['/']) 301 := by
    have : Entry.dir.IsDir = true ∧ ¬ HasSuffix r.Path "/".toList = true :=
      ⟨rfl, by rw [hs]; decide⟩
    simp only [StaticHandler, StaticHandlerFunc, if_neg hP, hd, if_pos this]
  obtain ⟨t, ht, hth⟩ := (pathAbsolute_iff _).mp h1
  have htne : t ≠ [] := by
    intro e
    rw [ht, e] at hP
    exact hP rfl
  refine ⟨?_, ?_, ?_⟩
  · rw [h]; exact Redirect_status lib w r _ 301 hw
  · refine ⟨_, by rw [h]; exact Redirect_Location lib w r _ 301, ?_⟩
    apply hexEscape_pathAbsolute
    rw [ht, List.cons_append]
    refine redirectTarget_pathAbsolute lib r (t ++ ['/']) ?_
    cases t with
    | nil => exact absurd rfl htne
    | cons a l => simpa using hth
  · intro hc hq ha
    rw [h, Redirect_Location, redirectTarget_cleanForm lib r _ hc hq, hexEscape_ascii]
    intro c hcm
    rcases List.mem_append.mp hcm with hcm | hcm
    · exact ha c hcm
    · have : c = '/' := by simpa using hcm
      rw [this]; decide

/-- Witness of C3 (amended): "/assets" on the sample store redirects to "/assets/". -/
theorem C3_directory_redirect_witness :
    (StaticHandler sampleLib sampleFS {} ⟨"GET", "/assets", []⟩).status = some 301 ∧
    (StaticHandler sampleLib sampleFS {} ⟨"GET", "/assets", []⟩).Get "Location"
      = some "/assets/".toList :=
  ⟨(C3_directory_redirect sampleLib sampleFS {} ⟨"GET", "/assets", []⟩ rfl (by decide)
      (by decide) (by decide)).1,
   (C3_directory_redirect sampleLib sampleFS {} ⟨"GET", "/assets", []⟩ rfl (by decide)
      (by decide) (by decide)).2.2 ⟨["assets".toList], by decide,
        by
          intro s hs
          have : s = "assets".toList := by simpa using hs
          subst this
          exact ⟨by decide, by decide, by decide, by decide⟩,
        by decide⟩ (by decide) (by decide)⟩

/-! ## main.go: one signal does not stop the server -/

theorem step_keeps_serving (s : Proc) (e : Event)
    (h : s.serving = true ∧ s.main = .listenAndServe ∧ s.exit ≠ some (.status 0)) :
    (step s e).serving = true ∧ (step s e).main = .listenAndServe ∧ (step s e).exit ≠ some (.status 0) := by
  obtain ⟨h1, h2, h3⟩ := h
  obtain ⟨mn, sh, nt, cd, dn, sv, ex⟩ := s
  simp only at h1 h2 h3
  subst h1 h2
  cases e <;> cases sh <;> cases ex <;>
    simp only [step, gracefulShutdown, main, Option.isSome] <;>
    (try split_ifs) <;> simp_all

theorem run_keeps_serving (es : List Event) : ∀ s : Proc,
    (s.serving = true ∧ s.main = .listenAndServe ∧ s.exit ≠ some (.status 0)) →
    (run s es).serving = true ∧ (run s es).main = .listenAndServe ∧ (run s es).exit ≠ some (.status 0) := by
  induction es with
  | nil => intro s h; exact h
  | cons e es ih =>
    intro s h
    exact ih (step s e) (step_keeps_serving s e h)

/-- With a call of `Shutdown` after the signal, which the program lacks, the same steps end
in the exit with status 0. -/
theorem exit_zero_after_Shutdown :
    (run (Shutdown (run servingProc [.signal, .shutdownStep, .shutdownStep, .shutdownStep]))
      [.mainStep, .mainStep]).exit = some (.status 0) := by
  decide

/-- C8 (the failing input): whatever happens after the server serves, signals included, the
process never exits with status 0, the server goes on serving and `main` stays inside
`ListenAndServe`.  After one signal and every step the two goroutines can take, `done` holds
its value, nobody receives it and the process runs; a second signal then kills it. -/
theorem C8_signal_does_not_stop_the_server (es : List Event) :
    (run servingProc es).exit ≠ some (.status 0) ∧
    (run servingProc es).serving = true ∧
    (run servingProc es).main = .listenAndServe ∧
    run servingProc [.signal, .shutdownStep, .shutdownStep, .shutdownStep, .mainStep, .mainStep]
      = { main := .listenAndServe, shutdown := .returned, notify := false, ctxDone := true,
          done := 1, serving := true, exit := none } ∧
    (run servingProc [.signal, .shutdownStep, .shutdownStep, .shutdownStep, .mainStep,
      .signal]).exit = some .killed := by
  have h := run_keeps_serving es servingProc ⟨rfl, rfl, by decide⟩
  exact ⟨h.2.2, h.1, h.2.1, by decide, by decide⟩

/-! ## server.go: the port -/

theorem natValueFrom_ge (s : Str) : ∀ n, n ≤ natValueFrom n s := by
  induction s with
  | nil => intro n; exact Nat.le_refl _
  | cons c t ih =>
    intro n
    have := ih (n * 10 + (digitVal c).getD 0)
    simp only [natValueFrom, List.foldl_cons] at this ⊢
    omega

theorem parseUintLoop_digits (s : Str) : ∀ n, (∀ c ∈ s, (digitVal c).isSome = true) →
    natValueFrom n s < 2 ^ 64 → parseUintLoop s n = (natValueFrom n s, none) := by
  induction s with
  | nil => intro n _ _; rfl
  | cons c t ih =>
    intro n hd hv
    obtain ⟨d, hdv⟩ := Option.isSome_iff_exists.mp (hd c (List.mem_cons_self _ _))
    have hv2 : natValueFrom (n * 10 + d) t < 2 ^ 64 := by
      simpa [natValueFrom, hdv] using hv
    have hge := natValueFrom_ge t (n * 10 + d)
    have hlt : n * 10 + d < 2 ^ 64 := lt_of_le_of_lt hge hv2
    have hcut : ¬ (n ≥ (2 ^ 64 - 1) / 10 + 1) := by norm_num at hlt ⊢; omega
    have hmod1 : (n * 10) % 2 ^ 64 = n * 10 := Nat.mod_eq_of_lt (by omega)
    have hmod2 : (n * 10 + d) % 2 ^ 64 = n * 10 + d := Nat.mod_eq_of_lt hlt
    have hov : ¬ (n * 10 + d < n * 10 ∨ n * 10 + d > 2 ^ 64 - 1) := by
      norm_num at hlt ⊢; omega
    simp only [parseUintLoop, hdv]
    rw [if_neg hcut, hmod1, hmod2, if_neg hov,
      ih (n * 10 + d) (fun x hx => hd x (List.mem_cons_of_mem _ hx)) hv2]
    simp [natValueFrom, hdv]

theorem parseUintLoop_nondigit (ds : Str) (c : Char) (rest : Str) : ∀ n,
    (∀ x ∈ ds, (digitVal x).isSome = true) → digitVal c = none →
    natValueFrom n ds < 2 ^ 64 → parseUintLoop (ds ++ c :: rest) n = (0, some .ErrSyntax) := by
  induction ds with
  | nil => intro n _ hc _; simp [parseUintLoop, hc]
  | cons a t ih =>
    intro n hd hc hv
    obtain ⟨d, hdv⟩ := Option.isSome_iff_exists.mp (hd a (List.mem_cons_self _ _))
    have hv2 : natValueFrom (n * 10 + d) t < 2 ^ 64 := by
      simpa [natValueFrom, hdv] using hv
    have hge := natValueFrom_ge t (n * 10 + d)
    have hlt : n * 10 + d < 2 ^ 64 := lt_of_le_of_lt hge hv2
    have hcut : ¬ (n ≥ (2 ^ 64 - 1) / 10 + 1) := by norm_num at hlt ⊢; omega
    have hmod1 : (n * 10) % 2 ^ 64 = n * 10 := Nat.mod_eq_of_lt (by omega)
    have hmod2 : (n * 10 + d) % 2 ^ 64 = n * 10 + d := Nat.mod_eq_of_lt hlt
    have hov : ¬ (n * 10 + d < n * 10 ∨ n * 10 + d > 2 ^ 64 - 1) := by
      norm_num at hlt ⊢; omega
    simp only [List.cons_append, parseUintLoop, hdv]
    rw [if_neg hcut, hmod1, hmod2, if_neg hov]
    exact ih (n * 10 + d) (fun x hx => hd x (List.mem_cons_of_mem _ hx)) hc hv2

theorem atoiFastLoop_digits (s : Str) : ∀ n, (∀ c ∈ s, (digitVal c).isSome = true) →
    atoiFastLoop s n = some (natValueFrom n s) := by
  induction s with
  | nil => intro n _; rfl
  | cons c t ih =>
    intro n hd
    obtain ⟨d, hdv⟩ := Option.isSome_iff_exists.mp (hd c (List.mem_cons_self _ _))
    simp only [atoiFastLoop, hdv]
    rw [ih _ (fun x hx => hd x (List.mem_cons_of_mem _ hx))]
    simp [natValueFrom, hdv]

theorem atoiFastLoop_nondigit (s : Str) : ∀ n, (∃ c ∈ s, digitVal c = none) →
    atoiFastLoop s n = none := by
  induction s with
  | nil => intro n h; simp at h
  | cons c t ih =>
    intro n h
    cases hdv : digitVal c with
    | none => simp [atoiFastLoop, hdv]
    | some d =>
      simp only [atoiFastLoop, hdv]
      apply ih
      obtain ⟨x, hx, hxn⟩ := h
      rcases List.mem_cons.mp hx with e | e
      · rw [e, hdv] at hxn; exact absurd hxn (by simp)
      · exact ⟨x, e, hxn⟩

theorem split_at_nondigit (l : Str) (h : ∃ c ∈ l, digitVal c = none) :
    ∃ c rest, digitVal c = none ∧
      l = l.takeWhile (fun c => (digitVal c).isSome) ++ c :: rest := by
  induction l with
  | nil => simp at h
  | cons a t ih =>
    cases ha : digitVal a with
    | none => exact ⟨a, t, ha, by simp [List.takeWhile, ha]⟩
    | some d =>
      obtain ⟨x, hx, hxn⟩ := h
      have hx2 : x ∈ t := by
        rcases List.mem_cons.mp hx with e | e
        · rw [e, ha] at hxn; exact absurd hxn (by simp)
        · exact e
      obtain ⟨c, rest, hc, he⟩ := ih ⟨x, hx2, hxn⟩
      refine ⟨c, rest, hc, ?_⟩
      simp only [List.takeWhile, ha, Option.isSome_some, List.cons_append]
      exact congrArg (a :: ·) he

theorem takeWhile_digits (l : Str) :
    ∀ c ∈ l.takeWhile (fun c => (digitVal c).isSome), (digitVal c).isSome = true := by
  intro c hc
  have := List.mem_takeWhile_imp hc
  simpa using this

theorem isDecimalInteger_true (s : Str) (h : isDecimalInteger s = true) :
    signBody s ≠ [] ∧ ∀ c ∈ signBody s, (digitVal c).isSome = true := by
  simpa [isDecimalInteger] using h

theorem isDecimalInteger_false (s : Str) (h : isDecimalInteger s = false) :
    signBody s = [] ∨ ∃ c ∈ signBody s, digitVal c = none := by
  by_cases he : signBody s = []
  · exact Or.inl he
  · right
    by_contra hn
    have hall : ∀ c ∈ signBody s, (digitVal c).isSome = true := by
      intro c hc
      by_contra hd
      exact hn ⟨c, hc, by simpa using hd⟩
    have : isDecimalInteger s = true := by
      simp only [isDecimalInteger, decide_eq_true_eq, List.all_eq_true]
      exact ⟨he, hall⟩
    rw [h] at this
    exact absurd this (by decide)

theorem signBody_comm (s : Str) :
    (if s.head? = some '-' ∨ s.head? = some '+' then s.drop 1 else s) = signBody s := by
  unfold signBody
  by_cases h : s.head? = some '-' ∨ s.head? = some '+'
  · rw [if_pos h, if_pos h.symm]
  · rw [if_neg h, if_neg (fun h2 => h h2.symm)]

theorem ParseUint_body (b : Str) (hb : b ≠ []) : ParseUint b = parseUintLoop b 0 := by
  simp [ParseUint, hb]

theorem ParseInt_decimal (s : Str) (hd : isDecimalInteger s = true)
    (hlo : -(2 ^ 63 : Int) ≤ intValue s) (hhi : intValue s < 2 ^ 63) :
    (ParseInt s).1 = intValue s := by
  obtain ⟨hne, hall⟩ := isDecimalInteger_true s hd
  have hs : s ≠ [] := by
    intro e
    rw [e] at hne
    exact hne rfl
  have hbody : (if s.head? = some '+' ∨ s.head? = some '-' then s.drop 1 else s) = signBody s :=
    rfl
  have hv : natValueFrom 0 (signBody s) < 2 ^ 64 := by
    unfold intValue at hlo hhi
    split_ifs at hlo hhi <;> omega
  unfold ParseInt
  simp only [if_neg hs, hbody]
  rw [ParseUint_body _ hne, parseUintLoop_digits _ 0 hall hv]
  unfold intValue at hlo hhi ⊢
  by_cases hneg : s.head? = some '-'
  · simp only [if_pos hneg] at hlo hhi ⊢
    have h2 : ¬ (natValueFrom 0 (signBody s) > 2 ^ 63) := by omega
    simp only [hneg, decide_True, Bool.not_true, Bool.false_eq_true, false_and, if_false,
      true_and, if_neg h2, if_true]
  · simp only [if_neg hneg] at hlo hhi ⊢
    have h1 : ¬ (natValueFrom 0 (signBody s) ≥ 2 ^ 63) := by omega
    simp only [hneg, decide_False, Bool.not_false, true_and, if_neg h1, false_and, if_false,
      Bool.false_eq_true]

theorem ParseInt_nondecimal (s : Str) (hd : isDecimalInteger s = false)
    (hv : natValueFrom 0 (leadingDigits s) < 2 ^ 64) : (ParseInt s).1 = 0 := by
  have hcase := isDecimalInteger_false s hd
  have hbody : (if s.head? = some '+' ∨ s.head? = some '-' then s.drop 1 else s) = signBody s :=
    rfl
  unfold ParseInt
  by_cases hs : s = []
  · simp only [if_pos hs]
  · simp only [if_neg hs, hbody]
    rcases hcase with he | hex
    · rw [he]
      simp [ParseUint]
    · obtain ⟨c, rest, hc, hsplit⟩ := split_at_nondigit _ hex
      have hne : signBody s ≠ [] := by
        obtain ⟨x, hx, _⟩ := hex
        exact List.ne_nil_of_mem hx
      rw [ParseUint_body _ hne, hsplit,
        parseUintLoop_nondigit _ c rest 0 (takeWhile_digits _) hc hv]

theorem Atoi_decimal (s : Str) (hd : isDecimalInteger s = true)
    (hlo : -(2 ^ 63 : Int) ≤ intValue s) (hhi : intValue s < 2 ^ 63) :
    (Atoi s).1 = intValue s := by
  obtain ⟨hne, hall⟩ := isDecimalInteger_true s hd
  unfold Atoi
  by_cases hfast : 0 < (utf8 s).length ∧ (utf8 s).length < 19
  · have hlen : ¬ (signBody s).length < 1 := by
      have := List.length_pos.mpr hne
      omega
    simp only [if_pos hfast, signBody_comm, if_neg hlen]
    rw [atoiFastLoop_digits _ _ hall]
    simp only [intValue]
  · simp only [if_neg hfast]
    exact ParseInt_decimal s hd hlo hhi

theorem Atoi_nondecimal (s : Str) (hd : isDecimalInteger s = false)
    (hv : natValueFrom 0 (leadingDigits s) < 2 ^ 64) : (Atoi s).1 = 0 := by
  have hcase := isDecimalInteger_false s hd
  unfold Atoi
  by_cases hfast : 0 < (utf8 s).length ∧ (utf8 s).length < 19
  · simp only [if_pos hfast, signBody_comm]
    by_cases hlen : (signBody s).length < 1
    · simp only [if_pos hlen]
    · simp only [if_neg hlen]
      rcases hcase with he | hex
      · rw [he] at hlen; simp at hlen
      · rw [atoiFastLoop_nondigit _ _ hex]
  · simp only [if_neg hfast]
    exact ParseInt_nondecimal s hd hv

/-- C9 (the claim fails): the decimal integer 9223372036854775808 (2^63) gives the port
9223372036854775807, and the non-numeric value "99999999999999999999x" gives the port
9223372036854775807 instead of 8080. -/
theorem C9_counterexample :
    isDecimalInteger "9223372036854775808" = true ∧
    intValue "9223372036854775808" = 9223372036854775808 ∧
    (NewServer "9223372036854775808").port = 9223372036854775807 ∧
    isDecimalInteger "99999999999999999999x" = false ∧
    (NewServer "99999999999999999999x").port = 9223372036854775807 := by
  decide

/-- C9 (amended): `NewServer` fixes the port as follows.  If the variable is absent (empty),
or its value is non-numeric and the run of digits before its first other character (after
an optional sign) denotes a number below 2^64, the port is 8080.  If the value is a decimal
integer `n` other than 0 with -2^63 ≤ n < 2^63, the port is `n`. -/
theorem C9_port_from_environment (s : Str) :
    (s = [] → (NewServer s).port = 8080) ∧
    (isDecimalInteger s = false → natValueFrom 0 (leadingDigits s) < 2 ^ 64 →
      (NewServer s).port = 8080) ∧
    (isDecimalInteger s = true → intValue s ≠ 0 →
      -(2 ^ 63 : Int) ≤ intValue s → intValue s < 2 ^ 63 → (NewServer s).port = intValue s) := by
  refine ⟨?_, ?_, ?_⟩
  · intro e
    subst e
    decide
  · intro hd hv
    simp [NewServer, Atoi_nondecimal s hd hv]
  · intro hd h0 hlo hhi
    simp [NewServer, Atoi_decimal s hd hlo hhi, h0]

/-- Witness of C9 (amended): "3000" gives 3000, "-42" gives -42, "abc", "12abc" and the
empty value give 8080. -/
theorem C9_port_from_environment_witness :
    (NewServer "3000").port = 3000 ∧ (NewServer "-42").port = -42 ∧
    (NewServer "abc").port = 8080 ∧ (NewServer "12abc").port = 8080 ∧
    (NewServer "").port = 8080 :=
  ⟨(C9_port_from_environment "3000").2.2 (by decide) (by decide) (by decide) (by decide),
   (C9_port_from_environment "-42").2.2 (by decide) (by decide) (by decide) (by decide),
   (C9_port_from_environment "abc").2.1 (by decide) (by decide),
   (C9_port_from_environment "12abc").2.1 (by decide) (by decide),
   (C9_port_from_environment "").1 rfl⟩

end Sampha
